import Mathlib

/-!
Verification of the CTTS concatenative text-to-speech engine (src/ctts.c,
src/ctts.h) against its natural-language specification.

The C program is shallowly embedded: machine integers become `Nat`/`Int`
with explicit `% 2 ^ w` where wraparound matters, UTF-8 byte strings become
`List Nat` (byte values), decoded text becomes `List Nat` (code points),
16-bit PCM sample buffers become `List Int`, and the `float` quantities of
the signal-processing code are idealised as rationals (`ℚ`); where the C
computes an irrational intermediate value (a square root, a cosine) the
embedding keeps that value as an explicit parameter constrained by
hypotheses, so every definition stays computable.

Each definition's doc comment names the C function it embeds.
-/

namespace CTTS

/-! ## Portuguese number expansion (ctts.c, `units_pt` / `tens_pt` /
`hundreds_pt` tables and `number_to_words_pt`, `full_number_to_words_pt`) -/

/-- Table `units_pt` (ctts.c:468). Index 0 is the empty string; out-of-range
indices (never used by the reachable code paths) also give the empty
string. -/
def unitsPt : Nat → String
  | 1 => "um"
  | 2 => "dois"
  | 3 => "três"
  | 4 => "quatro"
  | 5 => "cinco"
  | 6 => "seis"
  | 7 => "sete"
  | 8 => "oito"
  | 9 => "nove"
  | 10 => "dez"
  | 11 => "onze"
  | 12 => "doze"
  | 13 => "treze"
  | 14 => "quatorze"
  | 15 => "quinze"
  | 16 => "dezesseis"
  | 17 => "dezessete"
  | 18 => "dezoito"
  | 19 => "dezenove"
  | _ => ""

/-- Table `tens_pt` (ctts.c:475). -/
def tensPt : Nat → String
  | 2 => "vinte"
  | 3 => "trinta"
  | 4 => "quarenta"
  | 5 => "cinquenta"
  | 6 => "sessenta"
  | 7 => "setenta"
  | 8 => "oitenta"
  | 9 => "noventa"
  | _ => ""

/-- Table `hundreds_pt` (ctts.c:480). -/
def hundredsPt : Nat → String
  | 1 => "cento"
  | 2 => "duzentos"
  | 3 => "trezentos"
  | 4 => "quatrocentos"
  | 5 => "quinhentos"
  | 6 => "seiscentos"
  | 7 => "setecentos"
  | 8 => "oitocentos"
  | 9 => "novecentos"
  | _ => ""

/-- Embedding of `number_to_words_pt` (ctts.c:486-520), the 0-999 group
renderer. The C builds the string with `strncat` into a 64-byte buffer;
every reachable rendering is shorter than 64 bytes, so truncation never
fires and plain concatenation is faithful. -/
def numberToWordsPt (n : Nat) : String :=
  if n = 0 then "zero"
  else if n = 100 then "cem"
  else
    (if 0 < n / 100 then hundredsPt (n / 100) else "") ++
    (if 0 < n % 100 then
       (if 0 < n / 100 then " e " else "") ++
       (if n % 100 < 20 then unitsPt (n % 100)
        else tensPt (n % 100 / 10) ++
          (if 0 < n % 10 then " e " ++ unitsPt (n % 10) else ""))
     else "")

/-- Embedding of the positive-number body of `full_number_to_words_pt`
(ctts.c:536-583): the billions, millions, thousands and 0-999 groups in
order, each followed by its connective.  The C mutates `n` with `%=`;
here the successive remainders are the `let` bindings. -/
def fullPosWordsPt (m : Nat) : String :=
  let m1 := if 1000000000 ≤ m then m % 1000000000 else m
  let m2 := if 1000000 ≤ m1 then m1 % 1000000 else m1
  let m3 := if 1000 ≤ m2 then m2 % 1000 else m2
  (if 1000000000 ≤ m then
     numberToWordsPt (m / 1000000000) ++
     (if m / 1000000000 = 1 then " bilhão" else " bilhões") ++
     (if 0 < m1 then " e " else "")
   else "") ++
  (if 1000000 ≤ m1 then
     numberToWordsPt (m1 / 1000000) ++
     (if m1 / 1000000 = 1 then " milhão" else " milhões") ++
     (if 0 < m2 then " e " else "")
   else "") ++
  (if 1000 ≤ m2 then
     (if m2 / 1000 = 1 then "mil" else numberToWordsPt (m2 / 1000) ++ " mil") ++
     (if 0 < m3 then (if m3 < 100 then " e " else " ") else "")
   else "") ++
  (if 0 < m3 then numberToWordsPt m3 else "")

/-- Embedding of `full_number_to_words_pt` (ctts.c:523-584).  The C takes a
`long`; the embedding takes an unbounded `Int` (for every representable
`long` the arithmetic agrees). -/
def fullNumberToWordsPt (n : Int) : String :=
  if n = 0 then "zero"
  else (if n < 0 then "menos " else "") ++ fullPosWordsPt n.natAbs

example : fullNumberToWordsPt 0 = "zero" := by decide
example : fullNumberToWordsPt 100 = "cem" := by decide
example : fullNumberToWordsPt 1100 = "mil cem" := by decide
example : fullNumberToWordsPt 1050 = "mil e cinquenta" := by decide
example : fullNumberToWordsPt 234 = "duzentos e trinta e quatro" := by decide
example : fullNumberToWordsPt (-21) = "menos vinte e um" := by decide
example : fullNumberToWordsPt 2000000 = "dois milhões" := by decide
example : fullNumberToWordsPt 1000000100 = "um bilhão e cem" := by decide

/-- The sub-hundred tail of a 0-999 group rendering: the branch of
`number_to_words_pt` taken when the group has a nonzero `n % 100`. -/
def lowWordsPt (m : Nat) : String :=
  if m % 100 < 20 then unitsPt (m % 100)
  else tensPt (m % 100 / 10) ++
    (if 0 < m % 10 then " e " ++ unitsPt (m % 10) else "")

/-- C2: the Portuguese number expansion renders 100 alone as "cem" while
other values with a hundreds digit use cento/duzentos/.../novecentos;
values 10-19 are single unit words; tens are joined to units by " e ";
within a 0-999 group the hundreds are joined to the (always sub-100)
remainder by " e "; a thousands bucket equal to 1 prints "mil" without the
unit word, joined to the remainder by " e " when it is below 100 and by a
space otherwise; zero prints "zero"; negative integers are prefixed with
"menos ". -/
theorem pt_number_rendering :
    (numberToWordsPt 100 = "cem") ∧
    (∀ m : Nat, 100 ≤ m → m < 1000 → m ≠ 100 →
       numberToWordsPt m =
         hundredsPt (m / 100) ++
           (if 0 < m % 100 then " e " ++ lowWordsPt m else "")) ∧
    (∀ m : Nat, 10 ≤ m → m ≤ 19 → numberToWordsPt m = unitsPt m) ∧
    (∀ m : Nat, 20 ≤ m → m < 100 → 0 < m % 10 →
       numberToWordsPt m = tensPt (m / 10) ++ (" e " ++ unitsPt (m % 10))) ∧
    (∀ r : Nat, r < 1000 →
       fullNumberToWordsPt (1000 + (r : Int)) =
         "mil" ++ (if r = 0 then ""
                   else (if r < 100 then " e " else " ") ++ numberToWordsPt r)) ∧
    (fullNumberToWordsPt 0 = "zero") ∧
    (∀ n : Int, n < 0 → fullNumberToWordsPt n = "menos " ++ fullNumberToWordsPt (-n)) := by
  refine ⟨by decide, ?_, ?_, ?_, ?_, by decide, ?_⟩
  · intro m h1 h2 h3
    have h0 : ¬ m = 0 := by omega
    have hh : 0 < m / 100 := by omega
    unfold numberToWordsPt lowWordsPt
    rw [if_neg h0, if_neg h3, if_pos hh, if_pos hh]
  · intro m h1 h2
    have h0 : ¬ m = 0 := by omega
    have h3 : ¬ m = 100 := by omega
    have hh : ¬ 0 < m / 100 := by omega
    have hl : 0 < m % 100 := by omega
    have ht : m % 100 < 20 := by omega
    have hm : m % 100 = m := by omega
    unfold numberToWordsPt
    rw [if_neg h0, if_neg h3, if_neg hh, if_pos hl, if_neg hh, if_pos ht, hm]
    simp
  · intro m h1 h2 h3
    have h0 : ¬ m = 0 := by omega
    have h100 : ¬ m = 100 := by omega
    have hh : ¬ 0 < m / 100 := by omega
    have hl : 0 < m % 100 := by omega
    have ht : ¬ m % 100 < 20 := by omega
    have hm : m % 100 = m := by omega
    have hd : m % 100 / 10 = m / 10 := by omega
    unfold numberToWordsPt
    rw [if_neg h0, if_neg h100, if_neg hh, if_pos hl, if_neg hh, if_neg ht,
      hd, if_pos h3]
    simp
  · intro r hr
    have h0 : ¬ (1000 + (r : Int)) = 0 := by omega
    have hneg : ¬ (1000 + (r : Int)) < 0 := by omega
    have habs : (1000 + (r : Int)).natAbs = 1000 + r := by omega
    have hb : ¬ 1000000000 ≤ 1000 + r := by omega
    have hm : ¬ 1000000 ≤ 1000 + r := by omega
    have hk : 1000 ≤ 1000 + r := by omega
    have hk1 : (1000 + r) / 1000 = 1 := by omega
    have hr3 : (1000 + r) % 1000 = r := by omega
    simp only [fullNumberToWordsPt, fullPosWordsPt, if_neg h0, if_neg hneg,
      habs, if_neg hb, if_neg hm, if_pos hk, hk1, hr3]
    by_cases hz : r = 0
    · subst hz; decide
    · have hz' : 0 < r := by omega
      by_cases hc : r < 100
      · simp [if_neg hz, if_pos hz', if_pos hc, String.append_assoc]
        rfl
      · simp [if_neg hz, if_pos hz', if_neg hc, String.append_assoc]
        rfl
  · intro n hn
    have h0 : ¬ n = 0 := by omega
    have h0' : ¬ (-n) = 0 := by omega
    have hneg' : ¬ (-n) < 0 := by omega
    have habs : (-n).natAbs = n.natAbs := Int.natAbs_neg n
    unfold fullNumberToWordsPt
    rw [if_neg h0, if_neg h0', if_pos hn, if_neg hneg', habs]
    simp

/-- Closed witness for `pt_number_rendering`: instantiates the thousands
clause at 1234. -/
theorem pt_number_rendering_witness :
    fullNumberToWordsPt (1000 + (234 : Nat)) =
      "mil" ++ (if (234 : Nat) = 0 then ""
                else (if (234 : Nat) < 100 then " e " else " ") ++ numberToWordsPt 234) := by
  exact pt_number_rendering.2.2.2.2.1 234 (by decide)

/-! ## UTF-8 utilities and case folding (ctts.c, `ctts_utf8_next`,
`utf8_encode`, `unicode_tolower`, `ctts_normalize`)

Byte strings are `List Nat`; every byte access reduces the stored value
`% 256`, matching the C `unsigned char` reads.  The end of the list plays
the role of the NUL terminator: `ctts_utf8_next` only ever looks at a
further byte through a `(*s & 0xC0) == 0x80` test, which the terminator
fails, so "list exhausted" and "NUL reached" coincide. -/

/-- One conditional continuation-byte step of `ctts_utf8_next`
(ctts.c:128-153): `if ((*s & 0xC0) == 0x80) cp |= (*s++ & 0x3F) << k`.
`mult` is `2 ^ k`; `(b & 0xC0) == 0x80` on a byte is `b / 64 = 2`, and the
or-ed fields are disjoint so `|` is `+`. -/
def utf8Cont (st : Nat × List Nat) (mult : Nat) : Nat × List Nat :=
  match st with
  | (cp, []) => (cp, [])
  | (cp, b :: r) =>
    if (b % 256) / 64 = 2 then (cp + (b % 256) % 64 * mult, r) else (cp, b :: r)

/-- Embedding of `ctts_utf8_next` (ctts.c:128-153): decode one code point,
returning it with the remaining bytes.  On a byte `b < 256` the C mask
tests are `(b & 0xE0) == 0xC0 ↔ b / 32 = 6`, `(b & 0xF0) == 0xE0 ↔
b / 16 = 14`, `(b & 0xF8) == 0xF0 ↔ b / 8 = 30`. -/
def cttsUtf8Next : List Nat → Nat × List Nat
  | [] => (0, [])
  | b0 :: rest =>
    let b := b0 % 256
    if b < 128 then (b, rest)
    else if b / 32 = 6 then utf8Cont (b % 32 * 64, rest) 1
    else if b / 16 = 14 then utf8Cont (utf8Cont (b % 16 * 4096, rest) 64) 1
    else if b / 8 = 30 then
      utf8Cont (utf8Cont (utf8Cont (b % 8 * 262144, rest) 4096) 64) 1
    else (63, rest)

theorem utf8Cont_len (st : Nat × List Nat) (m : Nat) :
    (utf8Cont st m).2.length ≤ st.2.length := by
  match st with
  | (cp, []) => simp [utf8Cont]
  | (cp, b :: r) =>
    simp only [utf8Cont]
    split <;> simp

theorem cttsUtf8Next_len (b0 : Nat) (rest : List Nat) :
    (cttsUtf8Next (b0 :: rest)).2.length ≤ rest.length := by
  simp only [cttsUtf8Next]
  split
  · simp
  · split
    · exact le_trans (utf8Cont_len _ _) (by simp)
    · split
      · exact le_trans (utf8Cont_len _ _) (le_trans (utf8Cont_len _ _) (by simp))
      · split
        · exact le_trans (utf8Cont_len _ _)
            (le_trans (utf8Cont_len _ _) (le_trans (utf8Cont_len _ _) (by simp)))
        · simp

/-- Fuel-indexed form of the decoding loop of `ctts_normalize`
(ctts.c:224-228); the fuel only bounds the recursion and `s.length` units
always suffice, since every decode step consumes at least the lead byte. -/
def utf8DecodeAllF : Nat → List Nat → List Nat
  | 0, _ => []
  | _ + 1, [] => []
  | f + 1, b :: rest =>
    (cttsUtf8Next (b :: rest)).1 :: utf8DecodeAllF f (cttsUtf8Next (b :: rest)).2

theorem utf8DecodeAllF_congr (f₁ : Nat) : ∀ f₂ s, s.length ≤ f₁ → s.length ≤ f₂ →
    utf8DecodeAllF f₁ s = utf8DecodeAllF f₂ s := by
  induction f₁ with
  | zero =>
    intro f₂ s h1 _
    have hs : s = [] := List.eq_nil_of_length_eq_zero (by omega)
    subst hs
    cases f₂ <;> rfl
  | succ k ih =>
    intro f₂ s h1 h2
    cases s with
    | nil => cases f₂ <;> rfl
    | cons b rest =>
      cases f₂ with
      | zero => simp at h2
      | succ m =>
        simp only [utf8DecodeAllF]
        have hlen := cttsUtf8Next_len b rest
        simp only [List.length_cons] at h1 h2
        exact congrArg _ (ih m _ (by omega) (by omega))

/-- The decoding loop of `ctts_normalize` (ctts.c:224-228): decode every
code point of the byte string in order. -/
def utf8DecodeAll (s : List Nat) : List Nat :=
  utf8DecodeAllF s.length s

theorem utf8DecodeAll_nil : utf8DecodeAll [] = [] := rfl

theorem utf8DecodeAll_cons (b : Nat) (rest : List Nat) :
    utf8DecodeAll (b :: rest) =
      (cttsUtf8Next (b :: rest)).1 :: utf8DecodeAll (cttsUtf8Next (b :: rest)).2 := by
  simp only [utf8DecodeAll, List.length_cons, utf8DecodeAllF]
  exact congrArg _ (utf8DecodeAllF_congr _ _ _
    (le_trans (cttsUtf8Next_len b rest) (by omega)) le_rfl)

/-- Embedding of `unicode_tolower` (ctts.c:183-191). -/
def unicodeTolower (cp : Nat) : Nat :=
  if 65 ≤ cp ∧ cp ≤ 90 then cp + 32
  else if cp = 0xC9 then 0xE9
  else if cp = 0xD3 then 0xF3
  else if cp = 0xD4 then 0xF4
  else if cp = 0xC7 then 0xE7
  else cp

/-- Embedding of `utf8_encode` (ctts.c:194-214); `cp >> k` is `cp / 2 ^ k`,
`cp & 0x3F` is `cp % 64`, and the or-ed fields are disjoint for every code
point this program feeds in (all are below `0x200000`). -/
def utf8Encode (cp : Nat) : List Nat :=
  if cp < 128 then [cp]
  else if cp < 2048 then [192 + cp / 64, 128 + cp % 64]
  else if cp < 65536 then [224 + cp / 4096, 128 + cp / 64 % 64, 128 + cp % 64]
  else [240 + cp / 262144, 128 + cp / 4096 % 64, 128 + cp / 64 % 64, 128 + cp % 64]

/-- Encode a list of code points back to bytes, as the writing loop of
`ctts_normalize` does. -/
def utf8EncodeAll (cps : List Nat) : List Nat :=
  (cps.map utf8Encode).flatten

/-- Content of a NUL-terminated C string buffer: the bytes before the
first zero byte.  This is what a `char*` return value denotes. -/
def cStringBytes (s : List Nat) : List Nat :=
  s.takeWhile (fun b => b % 256 ≠ 0)

/-- Embedding of `ctts_normalize` (ctts.c:216-232): decode the input
string, lowercase each code point, re-encode.  The input pointer denotes
the bytes before its NUL; the returned pointer likewise denotes the bytes
before the first NUL of the rewritten buffer. -/
def cttsNormalizeBuffer (s : List Nat) : List Nat :=
  utf8EncodeAll ((utf8DecodeAll (cStringBytes s)).map unicodeTolower)

/-- The string value returned by `ctts_normalize`. -/
def cttsNormalize (s : List Nat) : List Nat :=
  cStringBytes (cttsNormalizeBuffer s)

example : cttsNormalize [0xC3, 0x89, 65] = [0xC3, 0xA9, 97] := by decide
example : cttsNormalize [0x51, 0x55, 0xC3, 0x87] = [0x71, 0x75, 0xC3, 0xA7] := by
  decide

theorem utf8Cont_le (st : Nat × List Nat) (m : Nat) :
    (utf8Cont st m).1 ≤ st.1 + 63 * m := by
  match st with
  | (cp, []) => simp [utf8Cont]
  | (cp, b :: r) =>
    simp only [utf8Cont]
    split
    · have hb : b % 256 % 64 ≤ 63 := by omega
      have := Nat.mul_le_mul_right m hb
      simp only
      omega
    · simp

theorem cttsUtf8Next_lt (s : List Nat) : (cttsUtf8Next s).1 < 2097152 := by
  match s with
  | [] => simp [cttsUtf8Next]
  | b0 :: rest =>
    simp only [cttsUtf8Next]
    split
    · omega
    · split
      · have h1 := utf8Cont_le (b0 % 256 % 32 * 64, rest) 1
        omega
      · split
        · have h1 := utf8Cont_le (utf8Cont (b0 % 256 % 16 * 4096, rest) 64) 1
          have h2 := utf8Cont_le (b0 % 256 % 16 * 4096, rest) 64
          simp only at h1 h2
          omega
        · split
          · have h1 := utf8Cont_le
              (utf8Cont (utf8Cont (b0 % 256 % 8 * 262144, rest) 4096) 64) 1
            have h2 := utf8Cont_le (utf8Cont (b0 % 256 % 8 * 262144, rest) 4096) 64
            have h3 := utf8Cont_le (b0 % 256 % 8 * 262144, rest) 4096
            simp only at h1 h2 h3
            omega
          · omega

theorem utf8Encode_ne_nil (cp : Nat) : utf8Encode cp ≠ [] := by
  unfold utf8Encode
  split_ifs <;> simp

/-- Decoding inverts encoding on every code point the decoder can produce
(everything below `0x200000`). -/
theorem cttsUtf8Next_encode (cp : Nat) (h : cp < 2097152) (rest : List Nat) :
    cttsUtf8Next (utf8Encode cp ++ rest) = (cp, rest) := by
  by_cases h1 : cp < 128
  · have e0 : cp % 256 = cp := Nat.mod_eq_of_lt (by omega)
    simp only [utf8Encode, if_pos h1, List.cons_append, List.nil_append,
      cttsUtf8Next, e0, if_pos h1]
  · by_cases h2 : cp < 2048
    · simp only [utf8Encode, if_neg h1, if_pos h2, List.cons_append,
        List.nil_append, cttsUtf8Next]
      have e1 : (192 + cp / 64) % 256 = 192 + cp / 64 := by omega
      rw [e1, if_neg (by omega : ¬ (192 + cp / 64 < 128)),
        if_pos (by omega : (192 + cp / 64) / 32 = 6)]
      simp only [utf8Cont]
      rw [if_pos (by omega : (128 + cp % 64) % 256 / 64 = 2)]
      simp only [Prod.mk.injEq]
      constructor
      · omega
      · trivial
    · by_cases h3 : cp < 65536
      · simp only [utf8Encode, if_neg h1, if_neg h2, if_pos h3,
          List.cons_append, List.nil_append, cttsUtf8Next]
        have e1 : (224 + cp / 4096) % 256 = 224 + cp / 4096 := by omega
        rw [e1, if_neg (by omega : ¬ (224 + cp / 4096 < 128)),
          if_neg (by omega : ¬ (224 + cp / 4096) / 32 = 6),
          if_pos (by omega : (224 + cp / 4096) / 16 = 14),
          show (224 + cp / 4096) % 16 = cp / 4096 by omega]
        have hC1 : utf8Cont (cp / 4096 * 4096,
            (128 + cp / 64 % 64) :: (128 + cp % 64) :: rest) 64 =
            (cp / 4096 * 4096 + cp / 64 % 64 * 64, (128 + cp % 64) :: rest) := by
          simp only [utf8Cont]
          rw [if_pos (by omega : (128 + cp / 64 % 64) % 256 / 64 = 2)]
          simp only [Prod.mk.injEq]
          exact ⟨by omega, trivial⟩
        rw [hC1]
        simp only [utf8Cont]
        rw [if_pos (by omega : (128 + cp % 64) % 256 / 64 = 2)]
        simp only [Prod.mk.injEq]
        exact ⟨by omega, trivial⟩
      · simp only [utf8Encode, if_neg h1, if_neg h2, if_neg h3,
          List.cons_append, List.nil_append, cttsUtf8Next]
        have e1 : (240 + cp / 262144) % 256 = 240 + cp / 262144 := by omega
        rw [e1, if_neg (by omega : ¬ (240 + cp / 262144 < 128)),
          if_neg (by omega : ¬ (240 + cp / 262144) / 32 = 6),
          if_neg (by omega : ¬ (240 + cp / 262144) / 16 = 14),
          if_pos (by omega : (240 + cp / 262144) / 8 = 30),
          show (240 + cp / 262144) % 8 = cp / 262144 by omega]
        have hC1 : utf8Cont (cp / 262144 * 262144,
            (128 + cp / 4096 % 64) :: (128 + cp / 64 % 64) :: (128 + cp % 64) :: rest)
            4096 =
            (cp / 262144 * 262144 + cp / 4096 % 64 * 4096,
              (128 + cp / 64 % 64) :: (128 + cp % 64) :: rest) := by
          simp only [utf8Cont]
          rw [if_pos (by omega : (128 + cp / 4096 % 64) % 256 / 64 = 2)]
          simp only [Prod.mk.injEq]
          exact ⟨by omega, trivial⟩
        rw [hC1]
        have hC2 : utf8Cont (cp / 262144 * 262144 + cp / 4096 % 64 * 4096,
            (128 + cp / 64 % 64) :: (128 + cp % 64) :: rest) 64 =
            (cp / 262144 * 262144 + cp / 4096 % 64 * 4096 + cp / 64 % 64 * 64,
              (128 + cp % 64) :: rest) := by
          simp only [utf8Cont]
          rw [if_pos (by omega : (128 + cp / 64 % 64) % 256 / 64 = 2)]
          simp only [Prod.mk.injEq]
          exact ⟨by omega, trivial⟩
        rw [hC2]
        simp only [utf8Cont]
        rw [if_pos (by omega : (128 + cp % 64) % 256 / 64 = 2)]
        simp only [Prod.mk.injEq]
        exact ⟨by omega, trivial⟩

theorem utf8DecodeAll_encode_append (cp : Nat) (h : cp < 2097152)
    (rest : List Nat) :
    utf8DecodeAll (utf8Encode cp ++ rest) = cp :: utf8DecodeAll rest := by
  obtain ⟨b, t, hbt⟩ : ∃ b t, utf8Encode cp = b :: t := by
    cases hE : utf8Encode cp with
    | nil => exact absurd hE (utf8Encode_ne_nil cp)
    | cons b t => exact ⟨b, t, rfl⟩
  have key := cttsUtf8Next_encode cp h rest
  rw [hbt, List.cons_append] at key ⊢
  rw [utf8DecodeAll_cons, key]

/-- Decoding inverts encoding on lists of in-range code points. -/
theorem utf8DecodeAll_encodeAll (cps : List Nat)
    (h : ∀ cp ∈ cps, cp < 2097152) :
    utf8DecodeAll (utf8EncodeAll cps) = cps := by
  induction cps with
  | nil => rfl
  | cons c cs ih =>
    have hc : c < 2097152 := h c (by simp)
    have hcs : ∀ x ∈ cs, x < 2097152 := fun x hx => h x (by simp [hx])
    have hsplit : utf8EncodeAll (c :: cs) = utf8Encode c ++ utf8EncodeAll cs := by
      simp [utf8EncodeAll]
    rw [hsplit, utf8DecodeAll_encode_append c hc, ih hcs]

theorem unicodeTolower_idem (cp : Nat) :
    unicodeTolower (unicodeTolower cp) = unicodeTolower cp := by
  unfold unicodeTolower
  split_ifs <;> omega

theorem unicodeTolower_lt (cp : Nat) (h : cp < 2097152) :
    unicodeTolower cp < 2097152 := by
  unfold unicodeTolower
  split_ifs <;> omega

theorem utf8DecodeAllF_lt (f : Nat) : ∀ s, ∀ c ∈ utf8DecodeAllF f s, c < 2097152 := by
  induction f with
  | zero => intro s c hc; simp [utf8DecodeAllF] at hc
  | succ k ih =>
    intro s c hc
    cases s with
    | nil => simp [utf8DecodeAllF] at hc
    | cons b rest =>
      simp only [utf8DecodeAllF, List.mem_cons] at hc
      rcases hc with hc | hc
      · subst hc; exact cttsUtf8Next_lt _
      · exact ih _ c hc

theorem utf8DecodeAll_lt (s : List Nat) : ∀ c ∈ utf8DecodeAll s, c < 2097152 :=
  utf8DecodeAllF_lt s.length s

theorem takeWhile_append_of_all {α : Type} (p : α → Bool) (l1 l2 : List α)
    (h : ∀ b ∈ l1, p b = true) :
    (l1 ++ l2).takeWhile p = l1 ++ l2.takeWhile p := by
  induction l1 with
  | nil => simp
  | cons a t ih =>
    have ha : p a = true := h a (by simp)
    simp only [List.cons_append, List.takeWhile_cons, ha, if_true]
    rw [ih (fun b hb => h b (by simp [hb]))]

theorem takeWhile_eq_self_of_all {α : Type} (p : α → Bool) (l : List α)
    (h : ∀ b ∈ l, p b = true) : l.takeWhile p = l := by
  have := takeWhile_append_of_all p l [] h
  simpa using this

theorem map_eq_self_of_fix {α : Type} (f : α → α) (l : List α)
    (h : ∀ x ∈ l, f x = x) : l.map f = l := by
  induction l with
  | nil => rfl
  | cons a t ih =>
    simp only [List.map_cons, h a (by simp), ih (fun x hx => h x (by simp [hx]))]

/-- Every byte of the encoding of a nonzero in-range code point is a
nonzero byte below 256 (a multi-byte encoding has no interior NUL). -/
theorem utf8Encode_bytes (cp : Nat) (h : cp < 2097152) (h0 : cp ≠ 0) :
    ∀ b ∈ utf8Encode cp, b % 256 ≠ 0 := by
  intro b hb
  unfold utf8Encode at hb
  split_ifs at hb <;> simp at hb
  · omega
  · rcases hb with hb | hb <;> omega
  · rcases hb with hb | hb | hb <;> omega
  · rcases hb with hb | hb | hb | hb <;> omega

theorem mem_of_takeWhile {α : Type} (p : α → Bool) (l : List α) (a : α)
    (h : a ∈ l.takeWhile p) : a ∈ l := by
  induction l with
  | nil => simp at h
  | cons x t ih =>
    simp only [List.takeWhile_cons] at h
    by_cases hp : p x = true
    · rw [if_pos hp] at h
      rcases List.mem_cons.mp h with h | h
      · simp [h]
      · simp [ih h]
    · rw [if_neg hp] at h
      simp at h

/-- Reading a NUL-terminated buffer holding the encoding of a code-point
list stops exactly at the first zero code point. -/
theorem cString_encodeAll (cps : List Nat) (h : ∀ cp ∈ cps, cp < 2097152) :
    cStringBytes (utf8EncodeAll cps) =
      utf8EncodeAll (cps.takeWhile (fun c => c ≠ 0)) := by
  induction cps with
  | nil => rfl
  | cons c cs ih =>
    have hc : c < 2097152 := h c (by simp)
    have hcs : ∀ x ∈ cs, x < 2097152 := fun x hx => h x (by simp [hx])
    have hsplit : utf8EncodeAll (c :: cs) = utf8Encode c ++ utf8EncodeAll cs := by
      simp [utf8EncodeAll]
    by_cases hz : c = 0
    · subst hz
      simp only [hsplit, cStringBytes]
      rw [show utf8Encode 0 = [0] from rfl]
      simp [utf8EncodeAll]
    · have ihh := ih hcs
      simp only [cStringBytes] at ihh ⊢
      rw [hsplit, takeWhile_append_of_all _ _ _
        (by intro b hb; simpa using utf8Encode_bytes c hc hz b hb), ihh]
      rw [show (c :: cs).takeWhile (fun c => decide (c ≠ 0)) =
        c :: cs.takeWhile (fun c => decide (c ≠ 0)) from by
          simp [List.takeWhile_cons, hz]]
      simp [utf8EncodeAll]

/-- C9: the case and diacritic fold is idempotent: applying
`ctts_normalize` to its own output yields the same string as a single
application. -/
theorem ctts_normalize_idempotent (s : List Nat) :
    cttsNormalize (cttsNormalize s) = cttsNormalize s := by
  unfold cttsNormalize cttsNormalizeBuffer
  set cps : List Nat := (utf8DecodeAll (cStringBytes s)).map unicodeTolower with hcps
  have hbound : ∀ c ∈ cps, c < 2097152 := by
    intro c hc
    rw [hcps] at hc
    obtain ⟨y, hy, hyc⟩ := List.mem_map.mp hc
    exact hyc ▸ unicodeTolower_lt y (utf8DecodeAll_lt _ y hy)
  set cps0 : List Nat := cps.takeWhile (fun c => c ≠ 0) with hcps0
  have hbound0 : ∀ c ∈ cps0, c < 2097152 := by
    intro c hc
    exact hbound c (mem_of_takeWhile _ _ _ hc)
  have hz0 : ∀ c ∈ cps0, c ≠ 0 := by
    intro c hc
    have := List.mem_takeWhile_imp hc
    simpa using this
  have hfix : ∀ c ∈ cps0, unicodeTolower c = c := by
    intro c hc
    have hmem : c ∈ cps := mem_of_takeWhile _ _ _ hc
    rw [hcps] at hmem
    obtain ⟨y, _, hyc⟩ := List.mem_map.mp hmem
    rw [← hyc, unicodeTolower_idem]
  have hR : cStringBytes (utf8EncodeAll cps) = utf8EncodeAll cps0 :=
    cString_encodeAll cps hbound
  rw [hR]
  have hNoZero : cStringBytes (utf8EncodeAll cps0) = utf8EncodeAll cps0 := by
    have := cString_encodeAll cps0 hbound0
    rw [takeWhile_eq_self_of_all _ _ (by intro c hc; simpa using hz0 c hc)] at this
    exact this
  rw [hNoZero, utf8DecodeAll_encodeAll cps0 hbound0, map_eq_self_of_fix _ _ hfix,
    hNoZero]

/-! ## Within-word silence removal (ctts.c, `remove_silence_regions`)

The region is a `List Int` of 16-bit samples; in-place writes become
`List.set`, which is a no-op out of bounds, and every write additionally
records (in a `Bool` flag) whether its index was inside the first `count`
elements, so the safety claim "never writes past the region" is the flag
staying `true`. -/

/-- Wrap an integer into the `int16_t` range, as a C store into an
`int16_t` lvalue does. -/
def toI16 (v : Int) : Int := (v + 32768) % 65536 - 32768

/-- The branchy absolute value `s > 0 ? s : -s` stored into an `int16_t`
(ctts.c:1583, 1598, 1604): note `-(-32768)` wraps back to `-32768`. -/
def cAbs16 (v : Int) : Int := toI16 (if 0 < v then v else -v)

/-- Truncation toward zero, the C `(int16_t)` cast applied to a `float`
value (before the 16-bit wrap). -/
def cTrunc (q : ℚ) : Int := if 0 ≤ q then ⌊q⌋ else ⌈q⌉

/-- The `max_amp` scan of `remove_silence_regions` (ctts.c:1581-1585). -/
def silMaxAmp (l : List Int) : Int :=
  l.foldl (fun acc v => if acc < cAbs16 v then cAbs16 v else acc) 0

/-- The inner run-measuring loop of `remove_silence_regions`
(ctts.c:1602-1607): advance `rp` while the sample at `rp` is at or below
the threshold, stopping at `count`.  `fuel` only bounds the recursion;
`count - rp` units always suffice. -/
def silRunEnd (thr : Int) (count : Nat) (l : List Int) : Nat → Nat → Nat
  | 0, rp => rp
  | f + 1, rp =>
    if rp < count ∧ cAbs16 (l.getD rp 0) ≤ thr then silRunEnd thr count l f (rp + 1)
    else rp

/-- A copy loop `samples[write_pos++] = samples[src++]` running `n` times
(the bodies at ctts.c:1616-1618, 1621-1623 and 1627).  The `Bool` records
whether every write index stayed below `count`. -/
def silCopy (count : Nat) : Nat → List Int → Nat → Nat → Bool →
    List Int × Nat × Bool
  | 0, arr, wp, _, ok => (arr, wp, ok)
  | n + 1, arr, wp, src, ok =>
    silCopy count n (arr.set wp (arr.getD src 0)) (wp + 1) (src + 1)
      (ok && decide (wp < count))

/-- The outer loop of `remove_silence_regions` (ctts.c:1596-1629).  One
iteration consumes at least one sample, so `count` units of fuel
suffice. -/
def silLoop (thr : Int) (minSil : Nat) (count : Nat) :
    Nat → List Int → Nat → Nat → Bool → List Int × Nat × Bool
  | 0, arr, wp, _, ok => (arr, wp, ok)
  | fuel + 1, arr, wp, rp, ok =>
    if rp < count then
      if cAbs16 (arr.getD rp 0) ≤ thr then
        let runEnd := silRunEnd thr count arr (count - rp) rp
        let runLen := runEnd - rp
        if minSil ≤ runLen then
          let keep := if minSil / 4 < 10 then 10 else minSil / 4
          let copied := min keep (count - rp)
          let st := silCopy count copied arr wp rp ok
          silLoop thr minSil count fuel st.1 st.2.1 runEnd st.2.2
        else
          let st := silCopy count runLen arr wp rp ok
          silLoop thr minSil count fuel st.1 st.2.1 runEnd st.2.2
      else
        silLoop thr minSil count fuel (arr.set wp (arr.getD rp 0)) (wp + 1)
          (rp + 1) (ok && decide (wp < count))
    else (arr, wp, ok)

/-- Embedding of `remove_silence_regions` (ctts.c:1576-1632).  Returns the
region after rewriting, the returned new count (`write_pos`), and the
write-bounds flag. -/
def removeSilenceRegions (l : List Int) (threshold : ℚ) (minSil : Nat) :
    List Int × Nat × Bool :=
  let count := l.length
  if count = 0 then (l, 0, true)
  else
    let maxAmp := silMaxAmp l
    if maxAmp = 0 then (l, count, true)
    else
      let thrAbs := toI16 (cTrunc (maxAmp * threshold))
      silLoop thrAbs minSil count count l 0 0 true

example :
    (silLoop 20 12 14 14 [1000, 1, 1, 1, 1, 1, 1, 1, 1, 1, 1, 1, 1, 2000]
      0 0 true).2.1 = 12 := by decide

theorem silCopy_len (count : Nat) :
    ∀ n arr wp src ok, (silCopy count n arr wp src ok).1.length = arr.length := by
  intro n
  induction n with
  | zero => intro arr wp src ok; rfl
  | succ k ih =>
    intro arr wp src ok
    simp only [silCopy, ih, List.length_set]

theorem silCopy_wp (count : Nat) :
    ∀ n arr wp src ok, (silCopy count n arr wp src ok).2.1 = wp + n := by
  intro n
  induction n with
  | zero => intro arr wp src ok; rfl
  | succ k ih =>
    intro arr wp src ok
    simp only [silCopy, ih]
    omega

theorem silCopy_ok (count : Nat) :
    ∀ n arr wp src, wp + n ≤ count →
      (silCopy count n arr wp src true).2.2 = true := by
  intro n
  induction n with
  | zero => intro arr wp src _; rfl
  | succ k ih =>
    intro arr wp src h
    simp only [silCopy]
    rw [show (true && decide (wp < count)) = true by
      simp [decide_eq_true_eq]; omega]
    exact ih _ _ _ (by omega)

theorem silRunEnd_ge (thr : Int) (count : Nat) (l : List Int) :
    ∀ f rp, rp ≤ silRunEnd thr count l f rp := by
  intro f
  induction f with
  | zero => intro rp; exact le_refl rp
  | succ k ih =>
    intro rp
    simp only [silRunEnd]
    split
    · exact le_trans (by omega) (ih (rp + 1))
    · exact le_refl rp

theorem silRunEnd_le (thr : Int) (count : Nat) (l : List Int) :
    ∀ f rp, rp ≤ count → silRunEnd thr count l f rp ≤ count := by
  intro f
  induction f with
  | zero => intro rp h; exact h
  | succ k ih =>
    intro rp h
    simp only [silRunEnd]
    split
    · rename_i hcond
      exact ih (rp + 1) (by omega)
    · exact h

theorem silRunEnd_gt (thr : Int) (count : Nat) (l : List Int)
    (f rp : Nat) (h1 : rp < count) (h2 : cAbs16 (l.getD rp 0) ≤ thr)
    (hf : 1 ≤ f) : rp + 1 ≤ silRunEnd thr count l f rp := by
  cases f with
  | zero => omega
  | succ k =>
    simp only [silRunEnd]
    rw [if_pos ⟨h1, h2⟩]
    exact silRunEnd_ge thr count l k (rp + 1)

theorem silLoop_inv (thr : Int) (minSil : Nat) (hmin : 10 ≤ minSil)
    (count : Nat) :
    ∀ fuel arr wp rp, arr.length = count → wp ≤ rp → rp ≤ count →
      count - rp ≤ fuel →
      (silLoop thr minSil count fuel arr wp rp true).2.1 ≤ count ∧
      (silLoop thr minSil count fuel arr wp rp true).2.2 = true ∧
      (silLoop thr minSil count fuel arr wp rp true).1.length = count := by
  intro fuel
  induction fuel with
  | zero =>
    intro arr wp rp hlen hwr hrc hf
    refine ⟨?_, rfl, hlen⟩
    show wp ≤ count
    omega
  | succ k ih =>
    intro arr wp rp hlen hwr hrc hf
    simp only [silLoop]
    by_cases hrp : rp < count
    · rw [if_pos hrp]
      by_cases hsil : cAbs16 (arr.getD rp 0) ≤ thr
      · rw [if_pos hsil]
        have hge := silRunEnd_gt thr count arr (count - rp) rp hrp hsil (by omega)
        have hle := silRunEnd_le thr count arr (count - rp) rp (by omega)
        set runEnd := silRunEnd thr count arr (count - rp) rp with hre
        by_cases hlong : minSil ≤ runEnd - rp
        · rw [if_pos hlong]
          have hkeep : (if minSil / 4 < 10 then 10 else minSil / 4) ≤ minSil := by
            split <;> omega
          set keep := if minSil / 4 < 10 then 10 else minSil / 4 with hk
          have hcopied : min keep (count - rp) ≤ runEnd - rp := by omega
          have hok := silCopy_ok count (min keep (count - rp)) arr wp rp
            (by omega)
          have hwp := silCopy_wp count (min keep (count - rp)) arr wp rp true
          have hln := silCopy_len count (min keep (count - rp)) arr wp rp true
          rw [hok]
          exact ih _ _ _ (by omega) (by omega) (by omega) (by omega)
        · rw [if_neg hlong]
          have hok := silCopy_ok count (runEnd - rp) arr wp rp (by omega)
          have hwp := silCopy_wp count (runEnd - rp) arr wp rp true
          have hln := silCopy_len count (runEnd - rp) arr wp rp true
          rw [hok]
          exact ih _ _ _ (by omega) (by omega) (by omega) (by omega)
      · rw [if_neg hsil]
        rw [show (true && decide (wp < count)) = true by
          simp [decide_eq_true_eq]; omega]
        exact ih _ _ _ (by simpa using hlen) (by omega) (by omega) (by omega)
    · rw [if_neg hrp]
      refine ⟨?_, rfl, hlen⟩
      show wp ≤ count
      omega

/-- C10: for every sample region, every threshold and every
`min_silence_samples` of at least 10, `remove_silence_regions` returns a
new count no larger than the input count, never writes outside the first
`count` elements, and leaves the region's length unchanged. -/
theorem remove_silence_regions_safe (l : List Int) (threshold : ℚ)
    (minSil : Nat) (hmin : 10 ≤ minSil) :
    (removeSilenceRegions l threshold minSil).2.1 ≤ l.length ∧
    (removeSilenceRegions l threshold minSil).2.2 = true ∧
    (removeSilenceRegions l threshold minSil).1.length = l.length := by
  unfold removeSilenceRegions
  by_cases h0 : l.length = 0
  · rw [if_pos h0]
    refine ⟨?_, rfl, rfl⟩
    show 0 ≤ l.length
    omega
  · rw [if_neg h0]
    by_cases hamp : silMaxAmp l = 0
    · rw [if_pos hamp]
      exact ⟨le_refl _, rfl, rfl⟩
    · rw [if_neg hamp]
      exact silLoop_inv _ minSil hmin l.length l.length l 0 0 rfl (by omega)
        (by omega) (by omega)

/-- Closed witness for `remove_silence_regions_safe`. -/
theorem remove_silence_regions_safe_witness :
    (removeSilenceRegions [5, 0, 0] (1/50) 10).2.1 ≤ 3 ∧
    (removeSilenceRegions [5, 0, 0] (1/50) 10).2.2 = true ∧
    (removeSilenceRegions [5, 0, 0] (1/50) 10).1.length = 3 :=
  remove_silence_regions_safe [5, 0, 0] (1/50) 10 (by decide)

/-! ## Portuguese phonotactics (ctts.c, `is_vowel`, `is_pt_consonant`,
`is_pt_digraph`, `is_pt_valid_cluster`, `pt_reject_single_consonant`,
`pt_syllable_score`)

Normalised text is modelled as its list of decoded code points
(`List Nat`).  `is_pt_digraph` and `is_pt_valid_cluster` read the first
two BYTES of the candidate; on code-point lists this coincides with
reading the first two code points, because a digraph or cluster can only
match when both bytes are ASCII letters, in which case each byte is a
whole character, and a multi-byte lead or continuation byte (≥ 0x80)
matches no letter either way. -/

/-- Embedding of `is_vowel` (ctts.c:2126-2148). -/
def isVowel (cp : Nat) : Bool :=
  (cp == 97) || (cp == 101) || (cp == 105) || (cp == 111) || (cp == 117) ||
  (cp == 65) || (cp == 69) || (cp == 73) || (cp == 79) || (cp == 85) ||
  (cp == 0xE1) || (cp == 0xC1) || (cp == 0xE0) || (cp == 0xC0) ||
  (cp == 0xE2) || (cp == 0xC2) || (cp == 0xE3) || (cp == 0xC3) ||
  (cp == 0xE9) || (cp == 0xC9) || (cp == 0xEA) || (cp == 0xCA) ||
  (cp == 0xED) || (cp == 0xCD) || (cp == 0xF3) || (cp == 0xD3) ||
  (cp == 0xF4) || (cp == 0xD4) || (cp == 0xF5) || (cp == 0xD5) ||
  (cp == 0xFA) || (cp == 0xDA) || (cp == 0xFC) || (cp == 0xDC)

/-- The ASCII lowercase mapping `c >= 'A' && c <= 'Z' ? c + 32 : c` that
`is_pt_digraph` and `is_pt_valid_cluster` apply to each byte. -/
def lowerByte (b : Nat) : Nat := if 65 ≤ b ∧ b ≤ 90 then b + 32 else b

/-- Embedding of `is_pt_consonant` (ctts.c:2222-2227). -/
def isPtConsonant (cp : Nat) : Bool :=
  let c1 := if 65 ≤ cp ∧ cp ≤ 90 then cp + 32 else cp
  let c2 := if c1 = 199 then 231 else c1
  (decide (97 ≤ c2) && decide (c2 ≤ 122) && !isVowel c2) || (c2 == 231)

/-- Embedding of the digraph test of `is_pt_digraph` (ctts.c:2230-2248) on
its two (lowercased) leading bytes: ch, lh, nh, qu, gu. -/
def isPtDigraph (c1 c2 : Nat) : Bool :=
  let l1 := lowerByte c1
  let l2 := lowerByte c2
  (l1 == 99 && l2 == 104) || (l1 == 108 && l2 == 104) ||
  (l1 == 110 && l2 == 104) || (l1 == 113 && l2 == 117) ||
  (l1 == 103 && l2 == 117)

/-- Embedding of `is_pt_digraph` (ctts.c:2230-2248) on a text: fewer than
two characters never match. -/
def isPtDigraphList (l : List Nat) : Bool :=
  match l with
  | c1 :: c2 :: _ => isPtDigraph c1 c2
  | _ => false

/-- Embedding of the cluster test of `is_pt_valid_cluster`
(ctts.c:2251-2274): obstruent + r (pr br tr dr cr gr fr vr) or
obstruent + l (pl bl cl gl fl). -/
def isPtValidCluster (c1 c2 : Nat) : Bool :=
  let l1 := lowerByte c1
  let l2 := lowerByte c2
  if l2 == 114 then
    (l1 == 112) || (l1 == 98) || (l1 == 116) || (l1 == 100) ||
    (l1 == 99) || (l1 == 103) || (l1 == 102) || (l1 == 118)
  else if l2 == 108 then
    (l1 == 112) || (l1 == 98) || (l1 == 99) || (l1 == 103) || (l1 == 102)
  else false

/-- Embedding of `is_pt_valid_cluster` (ctts.c:2251-2274) on a text. -/
def isPtValidClusterList (l : List Nat) : Bool :=
  match l with
  | c1 :: c2 :: _ => isPtValidCluster c1 c2
  | _ => false

/-- Lead byte of the UTF-8 encoding of a code point (what `*p` reads when
`p` points at the character). -/
def utf8LeadByte (cp : Nat) : Nat :=
  if cp < 128 then cp
  else if cp < 2048 then 192 + cp / 64
  else if cp < 65536 then 224 + cp / 4096
  else 240 + cp / 262144

/-- Embedding of `pt_reject_single_consonant` (ctts.c:2277-2301).  `text`
is the input from the candidate position on.  The C builds a two-byte
buffer from `(char)cp` — the code point truncated to a byte — and the raw
first byte of the following character, then calls `is_pt_digraph` on
it. -/
def ptRejectSingleConsonant (text : List Nat) (matchCharCount : Nat)
    (atWordStart : Bool) : Bool :=
  if matchCharCount ≠ 1 then false
  else if isVowel (text.headD 0) then false
  else if atWordStart then true
  else
    match text.get? 1 with
    | none => false
    | some c2 =>
      isPtDigraph ((if 65 ≤ text.headD 0 ∧ text.headD 0 ≤ 90
                    then text.headD 0 + 32 else text.headD 0) % 256)
        (lowerByte (utf8LeadByte c2))

/-- Embedding of `pt_syllable_score` (ctts.c:2304-2352).  `text` is the
input from the candidate position on and `charCount` the candidate's
character count (the candidate is `text.take charCount`); the C's
`byte_len` bounds exactly those characters.  The additions happen in the
C's order; `+` on `Int` is the same in any order. -/
def ptSyllableScore (text : List Nat) (charCount : Nat)
    (atWordStart : Bool) : Int :=
  if charCount = 0 then -1000
  else
    (charCount : Int) * 10
    + (if 2 ≤ charCount then
         (if isPtDigraphList text then 20 else 0)
         + (if isPtConsonant (text.headD 0) && isPtValidClusterList text
            then 15 else 0)
       else 0)
    + (if atWordStart && isPtConsonant (text.headD 0) then
         (if charCount = 1 then -100
          else match text.get? 1 with
               | some c2 => if isVowel c2 then 25 else 0
               | none => 0)
       else 0)
    + (if isVowel ((text.take charCount).getLastD 0) then 10 else 0)

example : ptSyllableScore [99, 104, 97] 2 true = 40 := by decide
example : ptSyllableScore [112, 114, 97] 3 true = 55 := by decide
example : ptSyllableScore [98] 1 true = -90 := by decide
example : ptSyllableScore [] 0 false = -1000 := by decide
example : ptRejectSingleConsonant [99, 104, 97] 1 false = true := by decide
example : ptRejectSingleConsonant [99, 97] 1 false = false := by decide
example : ptRejectSingleConsonant [98, 97] 1 true = true := by decide
example : ptRejectSingleConsonant [97, 98] 1 true = false := by decide

/-- The phonotactic score as the specification words it, as a function of
the candidate itself: 10 per character, +20 for a leading indivisible
digraph, +15 for a leading consonant-led onset cluster, at a word start
with a consonant lead −100 when a single character and +25 when the second
character is a vowel, +10 for a vowel ending; an empty candidate scores
−1000. -/
def specPtSyllableScore (cand : List Nat) (atWordStart : Bool) : Int :=
  if cand.length = 0 then -1000
  else
    10 * (cand.length : Int)
    + (if isPtDigraphList cand then 20 else 0)
    + (if isPtConsonant (cand.headD 0) && isPtValidClusterList cand then 15 else 0)
    + (if atWordStart && isPtConsonant (cand.headD 0) then
         (if cand.length = 1 then -100
          else if isVowel (cand.getD 1 0) then 25 else 0)
       else 0)
    + (if isVowel (cand.getLastD 0) then 10 else 0)

/-- C4: for every candidate (given as a character count into the remaining
input) the Portuguese phonotactic score computed by `pt_syllable_score`
equals the specification formula evaluated on the candidate itself. -/
theorem pt_syllable_score_spec (text : List Nat) (charCount : Nat)
    (atWordStart : Bool) (h : charCount ≤ text.length) :
    ptSyllableScore text charCount atWordStart =
      specPtSyllableScore (text.take charCount) atWordStart := by
  match charCount, text with
  | 0, text =>
    simp [ptSyllableScore, specPtSyllableScore]
  | n + 1, [] =>
    simp at h
  | 1, c1 :: rest =>
    simp only [ptSyllableScore, specPtSyllableScore, List.take, List.length_cons]
    norm_num [isPtDigraphList, isPtValidClusterList]
  | n + 2, c1 :: [] =>
    simp at h
  | n + 2, c1 :: c2 :: rest =>
    have hlen : (List.take (n + 2) (c1 :: c2 :: rest)).length = n + 2 := by
      rw [List.length_take]
      omega
    simp only [ptSyllableScore, specPtSyllableScore, hlen]
    norm_num
    simp only [List.take_succ_cons, isPtDigraphList, isPtValidClusterList,
      List.headD, List.getD, List.get?, List.getElem?_cons_zero]
    ring

/-- Closed witness for `pt_syllable_score_spec`. -/
theorem pt_syllable_score_spec_witness :
    ptSyllableScore [112, 114, 97] 3 true =
      specPtSyllableScore (([112, 114, 97] : List Nat).take 3) true :=
  pt_syllable_score_spec [112, 114, 97] 3 true (by decide)

/-! ## Unit selector with look-ahead (ctts.c, `find_longest_match`,
`find_best_match_with_lookahead`)

The unit store is abstracted by the oracle `findU`, standing for
`find_unit` applied to the UTF-8 encoding of a candidate character list
(non-negative result: unit index; negative: absent), which is the only way
the selector consults it. -/

/-- Byte length of the UTF-8 encoding of one code point, as
`utf8_char_len` (ctts.c:156-163) reads it off the lead byte. -/
def utf8CharLen (cp : Nat) : Nat :=
  if cp < 128 then 1
  else if cp < 2048 then 2
  else if cp < 65536 then 3
  else 4

/-- Byte length of a character list's UTF-8 encoding. -/
def byteLen (l : List Nat) : Nat := (l.map utf8CharLen).sum

/-- The descending-length loop of `find_longest_match` (ctts.c:1310-1326):
try prefixes of `len, len-1, ..., 1` characters and return the byte length
of the first one the store knows, else 0. -/
def findLongestMatchAux (findU : List Nat → Int) (text : List Nat) : Nat → Nat
  | 0 => 0
  | len + 1 =>
    if 0 ≤ findU (text.take (len + 1)) then byteLen (text.take (len + 1))
    else findLongestMatchAux findU text len

/-- Embedding of `find_longest_match` (ctts.c:1299-1329).  The C first
caps `try_chars` by the remaining byte count and then walks at most the
remaining characters, which nets out to `min maxChars text.length`
characters. -/
def findLongestMatch (findU : List Nat → Int) (text : List Nat)
    (maxChars : Nat) : Nat :=
  findLongestMatchAux findU text (min maxChars text.length)

/-- The per-candidate record of `find_best_match_with_lookahead`
(ctts.c:1369-1375). -/
structure MatchCandidate where
  byteLen : Nat
  charCount : Nat
  unitIdx : Int
  nextMatchLen : Nat
  ptScore : Int
deriving DecidableEq

/-- The candidate-collection loop of `find_best_match_with_lookahead`
(ctts.c:1386-1414): prefixes from `n` characters down to 1, keeping those
the store knows and the Portuguese single-consonant rejection admits, in
decreasing length order (the 64-candidate cap is applied by the caller
with `List.take`, matching the loop's stop condition since candidates
arrive in this order). -/
def collectCandidates (findU : List Nat → Int) (text : List Nat)
    (ws : Bool) : Nat → List MatchCandidate
  | 0 => []
  | c + 1 =>
    (if 0 ≤ findU (text.take (c + 1)) ∧
        ptRejectSingleConsonant text (c + 1) ws = false then
       [⟨byteLen (text.take (c + 1)), c + 1, findU (text.take (c + 1)), 0,
         ptSyllableScore text (c + 1) ws⟩]
     else []) ++ collectCandidates findU text ws c

/-- The look-ahead pass (ctts.c:1428-1437): skip the candidate, skip ASCII
whitespace, and record the longest plain match there (0 at end of
input). -/
def fillLookahead (findU : List Nat → Int) (text : List Nat) (maxChars : Nat)
    (cand : MatchCandidate) : MatchCandidate :=
  let nextText := (text.drop cand.charCount).dropWhile
    (fun ch => ch == 32 || ch == 9 || ch == 10)
  if nextText.length ≠ 0 then
    ⟨cand.byteLen, cand.charCount, cand.unitIdx,
      findLongestMatch findU nextText maxChars, cand.ptScore⟩
  else cand

/-- One comparison step of the selection loop (ctts.c:1455-1492): higher
Portuguese score, then higher coverage, then the end-of-word
tie-breaks. -/
def betterCandidate (best curr : MatchCandidate) : MatchCandidate :=
  if best.ptScore < curr.ptScore then curr
  else if curr.ptScore = best.ptScore then
    if best.charCount + best.nextMatchLen < curr.charCount + curr.nextMatchLen
    then curr
    else if curr.charCount + curr.nextMatchLen =
        best.charCount + best.nextMatchLen then
      if best.nextMatchLen = 0 ∧ curr.nextMatchLen ≠ 0 then best
      else if best.nextMatchLen ≠ 0 ∧ curr.nextMatchLen = 0 then curr
      else if best.nextMatchLen = 0 ∧ curr.nextMatchLen = 0 then
        (if best.charCount < curr.charCount then curr else best)
      else (if best.nextMatchLen < curr.nextMatchLen then curr else best)
    else best
  else best

/-- Embedding of `find_best_match_with_lookahead` (ctts.c:1348-1496),
returning the chosen candidate (the C returns its byte length and unit
index).  Empty input or no candidate: none; a single candidate is returned
without look-ahead; otherwise look-ahead lengths are filled in and the
best is folded out with `betterCandidate` starting from the first. -/
def findBestCandidate (findU : List Nat → Int) (text : List Nat)
    (maxChars : Nat) (ws : Bool) : Option MatchCandidate :=
  if text.length = 0 then none
  else
    let cands := (collectCandidates findU text ws (min maxChars text.length)).take 64
    if cands.length = 0 then none
    else if cands.length = 1 then cands.head?
    else
      match cands.map (fillLookahead findU text maxChars) with
      | [] => none
      | d0 :: ds => some (ds.foldl betterCandidate d0)

theorem betterCandidate_cases (b c : MatchCandidate) :
    betterCandidate b c = b ∨ betterCandidate b c = c := by
  unfold betterCandidate
  split_ifs <;> simp

theorem foldl_betterCandidate_mem (l : List MatchCandidate) :
    ∀ init, l.foldl betterCandidate init = init ∨
      l.foldl betterCandidate init ∈ l := by
  induction l with
  | nil => intro init; left; rfl
  | cons a t ih =>
    intro init
    rw [List.foldl_cons]
    rcases ih (betterCandidate init a) with h | h
    · rw [h]
      rcases betterCandidate_cases init a with h2 | h2
      · left; exact h2
      · right; rw [h2]; exact List.mem_cons_self a t
    · right
      exact List.mem_cons_of_mem a h

theorem collectCandidates_mem (findU : List Nat → Int) (text : List Nat)
    (ws : Bool) :
    ∀ n cand, cand ∈ collectCandidates findU text ws n →
      1 ≤ cand.charCount ∧ cand.charCount ≤ n ∧
      ptRejectSingleConsonant text cand.charCount ws = false := by
  intro n
  induction n with
  | zero => intro cand h; simp [collectCandidates] at h
  | succ c ih =>
    intro cand h
    simp only [collectCandidates, List.mem_append] at h
    rcases h with h | h
    · split_ifs at h with hcond
      · simp only [List.mem_singleton] at h
        subst h
        refine ⟨?_, ?_, ?_⟩
        · show 1 ≤ c + 1
          omega
        · show c + 1 ≤ c + 1
          omega
        · exact hcond.2
      · simp at h
    · obtain ⟨h1, h2, h3⟩ := ih cand h
      exact ⟨h1, by omega, h3⟩

theorem fillLookahead_charCount (findU : List Nat → Int) (text : List Nat)
    (maxChars : Nat) (cand : MatchCandidate) :
    (fillLookahead findU text maxChars cand).charCount = cand.charCount := by
  simp only [fillLookahead]
  split <;> rfl

theorem isVowel_not_consonant (cp : Nat) (h : isVowel cp = true) :
    isPtConsonant cp = false := by
  simp only [isVowel, Bool.or_eq_true, beq_iff_eq] at h
  have hb : cp ≤ 252 := by omega
  interval_cases cp <;> revert h <;> decide

theorem isPtDigraph_values (c1 c2 : Nat) (h : isPtDigraph c1 c2 = true) :
    (c1 = 99 ∨ c1 = 67 ∨ c1 = 108 ∨ c1 = 76 ∨ c1 = 110 ∨ c1 = 78 ∨
     c1 = 113 ∨ c1 = 81 ∨ c1 = 103 ∨ c1 = 71) ∧
    (c2 = 104 ∨ c2 = 72 ∨ c2 = 117 ∨ c2 = 85) := by
  simp only [isPtDigraph, lowerByte, Bool.or_eq_true, Bool.and_eq_true,
    beq_iff_eq] at h
  constructor
  · split_ifs at h <;> omega
  · split_ifs at h <;> omega

theorem isPtDigraph_not_vowel (c1 c2 : Nat) (h : isPtDigraph c1 c2 = true) :
    isVowel c1 = false := by
  obtain ⟨h1, _⟩ := isPtDigraph_values c1 c2 h
  rcases h1 with rfl|rfl|rfl|rfl|rfl|rfl|rfl|rfl|rfl|rfl <;> decide

/-- A genuine two-character digraph is always caught by the rejection's
truncated-byte digraph test: digraph letters are ASCII, so the code-point
truncation and the lead-byte read are the identity on them. -/
theorem isPtDigraph_trunc_check (c1 c2 : Nat) (h : isPtDigraph c1 c2 = true) :
    isPtDigraph ((if 65 ≤ c1 ∧ c1 ≤ 90 then c1 + 32 else c1) % 256)
      (lowerByte (utf8LeadByte c2)) = true := by
  obtain ⟨h1, h2⟩ := isPtDigraph_values c1 c2 h
  rcases h1 with rfl|rfl|rfl|rfl|rfl|rfl|rfl|rfl|rfl|rfl <;>
    rcases h2 with rfl|rfl|rfl|rfl <;> revert h <;> decide

/-- What a surviving one-character candidate tells us: not a consonant at
a word start, and not the first letter of a digraph completed by the next
input character. -/
theorem reject_false_consequences (text : List Nat) (ws : Bool)
    (hr : ptRejectSingleConsonant text 1 ws = false) :
    (ws = true → isPtConsonant (text.headD 0) = false) ∧
    (∀ c2, text.get? 1 = some c2 → isPtDigraph (text.headD 0) c2 = false) := by
  unfold ptRejectSingleConsonant at hr
  rw [if_neg (by simp : ¬ (1 ≠ 1))] at hr
  constructor
  · intro hws
    subst hws
    by_cases hv : isVowel (text.headD 0) = true
    · exact isVowel_not_consonant _ hv
    · rw [if_neg hv, if_pos rfl] at hr
      cases hr
  · intro c2 hc2
    by_cases hd : isPtDigraph (text.headD 0) c2 = true
    · exfalso
      by_cases hv : isVowel (text.headD 0) = true
      · have hnv := isPtDigraph_not_vowel _ _ hd
        rw [hnv] at hv
        cases hv
      · rw [if_neg hv] at hr
        cases hws : ws with
        | true => rw [hws, if_pos rfl] at hr; cases hr
        | false =>
          rw [hws, if_neg (by simp), hc2] at hr
          have hr2 : isPtDigraph ((if 65 ≤ text.headD 0 ∧ text.headD 0 ≤ 90
              then text.headD 0 + 32 else text.headD 0) % 256)
              (lowerByte (utf8LeadByte c2)) = false := hr
          rw [isPtDigraph_trunc_check _ _ hd] at hr2
          cases hr2
    · simpa using hd

/-- The candidate returned by the selection stage comes from the collected
candidate list, with its character count intact (the look-ahead pass only
fills in `nextMatchLen`). -/
theorem bestFromCands_mem (findU : List Nat → Int) (text : List Nat)
    (maxChars : Nat) (cands : List MatchCandidate) (cand : MatchCandidate)
    (hsel : (if cands.length = 0 then none
             else if cands.length = 1 then cands.head?
             else
               match cands.map (fillLookahead findU text maxChars) with
               | [] => none
               | d0 :: ds => some (ds.foldl betterCandidate d0)) =
           some cand) :
    ∃ x ∈ cands, cand.charCount = x.charCount := by
  match cands with
  | [] => simp at hsel
  | [a] =>
    have h0 : ¬ (([a] : List MatchCandidate).length = 0) := by simp
    have h1 : ([a] : List MatchCandidate).length = 1 := by simp
    rw [if_neg h0, if_pos h1] at hsel
    simp only [List.head?_cons, Option.some.injEq] at hsel
    exact ⟨a, by simp, by rw [← hsel]⟩
  | a :: b :: t =>
    have hlen0 : ¬ ((a :: b :: t).length = 0) := by simp
    have hlen1 : ¬ ((a :: b :: t).length = 1) := by simp
    rw [if_neg hlen0, if_neg hlen1] at hsel
    have hsel' : some ((fillLookahead findU text maxChars b ::
        t.map (fillLookahead findU text maxChars)).foldl betterCandidate
        (fillLookahead findU text maxChars a)) = some cand := hsel
    have hfold := Option.some.inj hsel'
    rcases foldl_betterCandidate_mem
        (fillLookahead findU text maxChars b ::
          t.map (fillLookahead findU text maxChars))
        (fillLookahead findU text maxChars a) with h | h
    · exact ⟨a, by simp, by rw [← hfold, h, fillLookahead_charCount]⟩
    · rcases List.mem_cons.mp h with h2 | h2
      · exact ⟨b, by simp, by rw [← hfold, h2, fillLookahead_charCount]⟩
      · obtain ⟨x, hx, hxe⟩ := List.mem_map.mp h2
        exact ⟨x, by simp [hx], by rw [← hfold, ← hxe, fillLookahead_charCount]⟩

/-- C3: whatever the store contents (`findU`), the input, and the
word-start flag, the selector never returns a one-character candidate that
is a consonant at a word start, and never returns a one-character
candidate whose character forms an indivisible digraph with the next input
character. -/
theorem selector_single_consonant_safety (findU : List Nat → Int)
    (text : List Nat) (maxChars : Nat) (ws : Bool) (cand : MatchCandidate)
    (hsel : findBestCandidate findU text maxChars ws = some cand)
    (hone : cand.charCount = 1) :
    (ws = true → isPtConsonant (text.headD 0) = false) ∧
    (∀ c2, text.get? 1 = some c2 → isPtDigraph (text.headD 0) c2 = false) := by
  have hr : ptRejectSingleConsonant text 1 ws = false := by
    unfold findBestCandidate at hsel
    by_cases h0 : text.length = 0
    · rw [if_pos h0] at hsel
      cases hsel
    rw [if_neg h0] at hsel
    obtain ⟨x, hxmem, hxeq⟩ :=
      bestFromCands_mem findU text maxChars _ cand hsel
    have hx' : x ∈ collectCandidates findU text ws (min maxChars text.length) :=
      (List.take_sublist 64 _).subset hxmem
    obtain ⟨_, _, hrej⟩ := collectCandidates_mem findU text ws _ x hx'
    rw [← hxeq, hone] at hrej
    exact hrej
  exact reject_false_consequences text ws hr

/-- Closed witness for `selector_single_consonant_safety`: a store that
only knows the vowel "a", on the input "ab" at a word start, selects the
one-character candidate "a". -/
theorem selector_single_consonant_safety_witness :
    (true = true →
      isPtConsonant (([97, 98] : List Nat).headD 0) = false) ∧
    (∀ c2, ([97, 98] : List Nat).get? 1 = some c2 →
      isPtDigraph (([97, 98] : List Nat).headD 0) c2 = false) :=
  selector_single_consonant_safety
    (fun l => if l = [97] then 0 else -1) [97, 98] 16 true
    ⟨1, 1, 0, 0, ptSyllableScore [97, 98] 1 true⟩ (by decide) (by decide)

/-! ## Unit database build and lookup (ctts.c, `ctts_hash`,
`ctts_build_database`, `find_unit`)

The database is modelled by the list of its unit texts (byte strings) in
index order; entry `i`'s string-pool bytes are `units.getD i []` and its
stored hash is `cttsHash` of them, exactly as the builder writes them.
The intrusive `next_hash` chains are represented by one list of entry
indices per bucket: the C's bucket head is the list head, each entry's
`next_hash` is its successor, and the `0xFFFFFFFF` sentinel is the end of
the list.  The builder's insertion (ctts.c:997-1007) walks to the chain's
last entry and links the new index there, i.e. appends at the tail, which
is what `buildChainsN` does. -/

/-- Embedding of `ctts_hash` (ctts.c:169-176): FNV-1a with offset basis
2166136261 and prime 16777619, in 32-bit arithmetic. -/
def cttsHash (bytes : List Nat) : Nat :=
  bytes.foldl (fun h b => ((h ^^^ (b % 256)) * 16777619) % 4294967296)
    2166136261

/-- The hash-table insertion loop of `ctts_build_database`
(ctts.c:985-1011) after `n` entries: entry `i` is appended at the tail of
the chain of bucket `hash_i % tsize`. -/
def buildChainsN (units : List (List Nat)) (tsize : Nat) :
    Nat → Nat → List Nat
  | 0 => fun _ => []
  | n + 1 => fun s =>
    if cttsHash (units.getD n []) % tsize = s
    then buildChainsN units tsize n s ++ [n]
    else buildChainsN units tsize n s

/-- The bucket chains of the finished database. -/
def unitChains (units : List (List Nat)) (tsize : Nat) : Nat → List Nat :=
  buildChainsN units tsize units.length

/-- One node test of `find_unit` (ctts.c:1286-1291): compare the stored
hash, then the stored `string_len` (a `uint16`, hence the `% 65536`), then
`memcmp` over the query's `len` bytes of the string pool. -/
def entryMatches (units : List (List Nat)) (h : Nat) (query : List Nat)
    (i : Nat) : Bool :=
  (cttsHash (units.getD i []) == h) &&
  ((units.getD i []).length % 65536 == query.length) &&
  decide ((units.getD i []).take query.length = query)

/-- The chain walk of `find_unit` (ctts.c:1284-1293) over a bucket
chain. -/
def findUnitChain (units : List (List Nat)) (h : Nat) (query : List Nat) :
    List Nat → Int
  | [] => -1
  | i :: rest =>
    if entryMatches units h query i then (i : Int)
    else findUnitChain units h query rest

/-- Embedding of `find_unit` (ctts.c:1279-1296): hash the query, pick the
bucket `hash % tsize`, walk its chain. -/
def findUnit (units : List (List Nat)) (tsize : Nat) (query : List Nat) :
    Int :=
  findUnitChain units (cttsHash query) query
    (unitChains units tsize (cttsHash query % tsize))

example :
    findUnit [[97], [98, 97], [99]] 4 [98, 97] = 1 := by decide
example :
    findUnit [[97], [98, 97], [99]] 4 [98] = -1 := by decide
example :
    findUnit [[97], [98, 97], [99]] 1 [99] = 2 := by decide

theorem buildChainsN_eq_filter (units : List (List Nat)) (tsize : Nat) :
    ∀ n s, buildChainsN units tsize n s =
      (List.range n).filter
        (fun i => cttsHash (units.getD i []) % tsize = s) := by
  intro n
  induction n with
  | zero => intro s; rfl
  | succ k ih =>
    intro s
    rw [List.range_succ, List.filter_append]
    simp only [buildChainsN, ih s, List.filter_singleton]
    split_ifs with h
    · have hd : (decide (cttsHash (units.getD k []) % tsize = s)) = true := by
        simpa using h
      rw [hd]
      simp
    · have hd : (decide (cttsHash (units.getD k []) % tsize = s)) = false := by
        simpa using h
      rw [hd]
      simp

theorem findUnitChain_no_match (units : List (List Nat)) (h : Nat)
    (query : List Nat) :
    ∀ l, (∀ i ∈ l, entryMatches units h query i = false) →
      findUnitChain units h query l = -1 := by
  intro l
  induction l with
  | nil => intro _; rfl
  | cons a t ih =>
    intro hall
    simp only [findUnitChain]
    rw [if_neg (by simp [hall a (by simp)])]
    exact ih (fun i hi => hall i (by simp [hi]))

theorem findUnitChain_found (units : List (List Nat)) (h : Nat)
    (query : List Nat) :
    ∀ l i₀, i₀ ∈ l → entryMatches units h query i₀ = true →
      ∃ i ∈ l, entryMatches units h query i = true ∧
        findUnitChain units h query l = (i : Int) := by
  intro l
  induction l with
  | nil => intro i₀ h0; simp at h0
  | cons a t ih =>
    intro i₀ h0 hm
    by_cases ha : entryMatches units h query a = true
    · refine ⟨a, by simp, ha, ?_⟩
      simp only [findUnitChain]
      rw [if_pos ha]
    · rcases List.mem_cons.mp h0 with rfl | h0'
      · exact absurd hm ha
      · obtain ⟨i, hi, him, hieq⟩ := ih i₀ h0' hm
        refine ⟨i, by simp [hi], him, ?_⟩
        simp only [findUnitChain]
        rw [if_neg ha]
        exact hieq

theorem entryMatches_of_eq (units : List (List Nat)) (query : List Nat)
    (i : Nat) (hq : units.getD i [] = query) (hlen : query.length < 65536) :
    entryMatches units (cttsHash query) query i = true := by
  simp only [entryMatches, hq, Bool.and_eq_true, beq_iff_eq, decide_eq_true_eq]
  exact ⟨⟨by simp, by omega⟩, List.take_length query⟩

theorem eq_of_entryMatches (units : List (List Nat)) (h : Nat)
    (query : List Nat) (i : Nat)
    (hm : entryMatches units h query i = true)
    (hshort : (units.getD i []).length < 65536) :
    units.getD i [] = query := by
  simp only [entryMatches, Bool.and_eq_true, beq_iff_eq,
    decide_eq_true_eq] at hm
  obtain ⟨⟨_, hlen⟩, htake⟩ := hm
  have hle : (units.getD i []).length = query.length := by omega
  rw [← htake, ← hle, List.take_length]

/-- C1: for every database the builder produces (any positive hash-table
size; unit texts short enough for their `uint16` length field, as every
real unit is), every bucket chain visits exactly the entries whose hash
reduces to that bucket, in strictly increasing index order — so following
`next_hash` terminates after at most `unit_count` steps — and `find_unit`
returns the index of an entry whose string-pool bytes equal the query
if and only if some unit has exactly that text, and `-1` otherwise. -/
theorem find_unit_correct (units : List (List Nat)) (tsize : Nat)
    (_htsize : 0 < tsize) (hshort : ∀ t ∈ units, t.length < 65536)
    (query : List Nat) :
    (∀ s, unitChains units tsize s =
       (List.range units.length).filter
         (fun i => cttsHash (units.getD i []) % tsize = s)) ∧
    (∀ s, List.Pairwise (· < ·) (unitChains units tsize s) ∧
       (unitChains units tsize s).length ≤ units.length) ∧
    ((∃ i, i < units.length ∧ units.getD i [] = query) →
       ∃ i : Nat, findUnit units tsize query = (i : Int) ∧
         i < units.length ∧ units.getD i [] = query) ∧
    ((¬ ∃ i, i < units.length ∧ units.getD i [] = query) →
       findUnit units tsize query = -1) := by
  have hchain : ∀ s, unitChains units tsize s =
      (List.range units.length).filter
        (fun i => cttsHash (units.getD i []) % tsize = s) :=
    fun s => buildChainsN_eq_filter units tsize units.length s
  have hmemshort : ∀ i, i < units.length → (units.getD i []).length < 65536 := by
    intro i hi
    have : units.getD i [] ∈ units := by
      rw [List.getD_eq_getElem?_getD, List.getElem?_eq_getElem hi]
      exact List.getElem_mem hi
    exact hshort _ this
  refine ⟨hchain, ?_, ?_, ?_⟩
  · intro s
    rw [hchain s]
    constructor
    · exact (List.pairwise_lt_range units.length).filter _
    · calc ((List.range units.length).filter _).length
          ≤ (List.range units.length).length := List.length_filter_le _ _
        _ = units.length := List.length_range units.length
  · rintro ⟨i₀, hi₀, hq₀⟩
    have hq0len : query.length < 65536 := by
      rw [← hq₀]
      exact hmemshort i₀ hi₀
    have hm₀ : entryMatches units (cttsHash query) query i₀ = true :=
      entryMatches_of_eq units query i₀ hq₀ hq0len
    have hin : i₀ ∈ unitChains units tsize (cttsHash query % tsize) := by
      rw [hchain]
      refine List.mem_filter.mpr ⟨List.mem_range.mpr hi₀, ?_⟩
      show decide (cttsHash (units.getD i₀ []) % tsize = cttsHash query % tsize)
        = true
      rw [hq₀]
      simp
    obtain ⟨i, hi, him, hieq⟩ :=
      findUnitChain_found units (cttsHash query) query _ i₀ hin hm₀
    have hirange : i < units.length := by
      rw [hchain] at hi
      exact List.mem_range.mp (List.mem_filter.mp hi).1
    exact ⟨i, hieq, hirange,
      eq_of_entryMatches units _ query i him (hmemshort i hirange)⟩
  · intro hnone
    apply findUnitChain_no_match
    intro i hi
    have hirange : i < units.length := by
      rw [hchain] at hi
      exact List.mem_range.mp (List.mem_filter.mp hi).1
    by_cases hm : entryMatches units (cttsHash query) query i = true
    · exfalso
      exact hnone ⟨i, hirange,
        eq_of_entryMatches units _ query i hm (hmemshort i hirange)⟩
    · simpa using hm

/-- Closed witness for `find_unit_correct`. -/
theorem find_unit_correct_witness :
    (∀ s, unitChains [[97], [98, 97]] 2 s =
       (List.range ([[97], [98, 97]] : List (List Nat)).length).filter
         (fun i => cttsHash (([[97], [98, 97]] : List (List Nat)).getD i []) % 2 = s)) ∧
    (∀ s, List.Pairwise (· < ·) (unitChains [[97], [98, 97]] 2 s) ∧
       (unitChains [[97], [98, 97]] 2 s).length ≤
         ([[97], [98, 97]] : List (List Nat)).length) ∧
    ((∃ i, i < ([[97], [98, 97]] : List (List Nat)).length ∧
        ([[97], [98, 97]] : List (List Nat)).getD i [] = [98, 97]) →
       ∃ i : Nat, findUnit [[97], [98, 97]] 2 [98, 97] = (i : Int) ∧
         i < ([[97], [98, 97]] : List (List Nat)).length ∧
         ([[97], [98, 97]] : List (List Nat)).getD i [] = [98, 97]) ∧
    ((¬ ∃ i, i < ([[97], [98, 97]] : List (List Nat)).length ∧
        ([[97], [98, 97]] : List (List Nat)).getD i [] = [98, 97]) →
       findUnit [[97], [98, 97]] 2 [98, 97] = -1) :=
  find_unit_correct [[97], [98, 97]] 2 (by decide) (by decide) [98, 97]

/-! ## Boundary energy matching (ctts.c, `calculate_rms`,
`match_boundary_energy`)

Float quantities are idealised as rationals.  `calculate_rms` takes a
square root, which is irrational in general, so the two RMS values enter
the model as parameters; `rmsSq` gives the exact (rational) square of what
`calculate_rms` computes, and theorems constrain the parameters with
`rms ≥ 0` and `rms ^ 2 = rmsSq region`. -/

/-- Square of `calculate_rms` (ctts.c:1639-1648): the mean of the squared
samples (0 for an empty region). -/
def rmsSq (l : List Int) : ℚ :=
  if l.length = 0 then 0
  else (l.map (fun s => ((s : ℚ)) ^ 2)).sum / (l.length : ℚ)

/-- The C `float` store `s = clamp(s); next_samples[i] = (int16_t)s`
(ctts.c:1696-1699): clamp to the 16-bit range, then truncate toward
zero. -/
def clampCastI16 (q : ℚ) : Int :=
  if q > 32767 then 32767
  else if q < -32768 then -32768
  else cTrunc q

/-- The ratio clamp of `match_boundary_energy` (ctts.c:1688-1690). -/
def clampRatio (q : ℚ) : ℚ :=
  if q > 2 then 2 else if q < 1/2 then 1/2 else q

/-- The gain the C applies at index `i` of a `k`-sample boundary
(ctts.c:1694-1695): `ratio * (1 - i/k) + 1 * (i/k)`. -/
def codeGain (ratio : ℚ) (i k : Nat) : ℚ :=
  ratio * (1 - (i : ℚ) / (k : ℚ)) + (i : ℚ) / (k : ℚ)

/-- The gain the claim describes: linear interpolation from `ratio` at
index 0 to exactly 1 at index `k - 1`. -/
def claimGain (ratio : ℚ) (i k : Nat) : ℚ :=
  ratio + (1 - ratio) * (i : ℚ) / ((k : ℚ) - 1)

/-- The gain-application loop of `match_boundary_energy`
(ctts.c:1693-1700), carrying the running index. -/
def applyGainLoop (bl : Nat) (ratio : ℚ) : List Int → Nat → List Int
  | [], _ => []
  | s :: rest, i =>
    (if i < bl then clampCastI16 ((s : ℚ) * codeGain ratio i bl) else s)
      :: applyGainLoop bl ratio rest (i + 1)

/-- Embedding of `match_boundary_energy` (ctts.c:1672-1701), returning the
rewritten incoming buffer (`next_samples` is modified in place; the
previous buffer is read only).  `prevRms` and `nextRms` stand for the two
`calculate_rms` results. -/
def matchBoundaryEnergy (prev next : List Int) (crossfade : Nat)
    (prevRms nextRms : ℚ) : List Int :=
  if crossfade = 0 ∨ prev.length = 0 ∨ next.length = 0 then next
  else
    let boundaryLen := min (min crossfade prev.length) next.length
    if prevRms < 1 ∨ nextRms < 1 then next
    else applyGainLoop boundaryLen (clampRatio (prevRms / nextRms)) next 0

theorem applyGainLoop_getD (bl : Nat) (r : ℚ) :
    ∀ (l : List Int) (i0 i : Nat),
      (applyGainLoop bl r l i0).getD i 0 =
        if i < l.length then
          (if i0 + i < bl then
             clampCastI16 ((l.getD i 0 : ℚ) * codeGain r (i0 + i) bl)
           else l.getD i 0)
        else 0 := by
  intro l
  induction l with
  | nil => intro i0 i; simp [applyGainLoop]
  | cons s rest ih =>
    intro i0 i
    cases i with
    | zero => simp [applyGainLoop]
    | succ j =>
      have harith : i0 + 1 + j = i0 + (j + 1) := by omega
      simp only [applyGainLoop, List.getD_cons_succ, ih (i0 + 1) j, harith,
        List.length_cons]
      exact if_congr (by omega) rfl rfl

/-- C6 (amended): with both boundary regions `crossfade` samples long and
both RMS values at least 1, the function applies to incoming sample `i`
the gain `ratio·(1 − i/crossfade) + i/crossfade`, which equals the clamped
ratio at index 0 and reaches exactly 1.0 only at index `crossfade` — one
past the last adjusted sample — not at index `crossfade − 1`; samples from
index `crossfade` on are untouched. -/
theorem match_boundary_energy_gain (prev next : List Int) (crossfade : Nat)
    (prevRms nextRms : ℚ)
    (hcf : 0 < crossfade) (hp : crossfade ≤ prev.length)
    (hn : crossfade ≤ next.length) (hpr : 1 ≤ prevRms) (hnr : 1 ≤ nextRms)
    (_hprv : prevRms ^ 2 = rmsSq (prev.drop (prev.length - crossfade)))
    (_hnxv : nextRms ^ 2 = rmsSq (next.take crossfade)) :
    (∀ i, i < crossfade →
       (matchBoundaryEnergy prev next crossfade prevRms nextRms).getD i 0 =
         clampCastI16 ((next.getD i 0 : ℚ) *
           codeGain (clampRatio (prevRms / nextRms)) i crossfade)) ∧
    (∀ i, crossfade ≤ i →
       (matchBoundaryEnergy prev next crossfade prevRms nextRms).getD i 0 =
         next.getD i 0) ∧
    codeGain (clampRatio (prevRms / nextRms)) 0 crossfade =
      clampRatio (prevRms / nextRms) ∧
    codeGain (clampRatio (prevRms / nextRms)) crossfade crossfade = 1 := by
  have hbl : min (min crossfade prev.length) next.length = crossfade := by
    omega
  have hcond : ¬ (crossfade = 0 ∨ prev.length = 0 ∨ next.length = 0) := by
    omega
  have hrms : ¬ (prevRms < 1 ∨ nextRms < 1) := by
    push_neg
    exact ⟨hpr, hnr⟩
  have hout : matchBoundaryEnergy prev next crossfade prevRms nextRms =
      applyGainLoop crossfade (clampRatio (prevRms / nextRms)) next 0 := by
    unfold matchBoundaryEnergy
    rw [if_neg hcond]
    simp only [hbl]
    rw [if_neg hrms]
  refine ⟨?_, ?_, ?_, ?_⟩
  · intro i hi
    rw [hout, applyGainLoop_getD]
    rw [if_pos (by omega : i < next.length)]
    simp only [Nat.zero_add]
    rw [if_pos hi]
  · intro i hi
    rw [hout, applyGainLoop_getD]
    by_cases hl : i < next.length
    · rw [if_pos hl]
      simp only [Nat.zero_add]
      rw [if_neg (by omega)]
    · rw [if_neg hl]
      rw [List.getD_eq_default]
      omega
  · unfold codeGain
    push_cast
    ring
  · unfold codeGain
    have : ((crossfade : ℚ)) ≠ 0 := by
      have : (0 : ℚ) < (crossfade : ℚ) := by exact_mod_cast hcf
      exact ne_of_gt this
    field_simp

/-- Closed witness for `match_boundary_energy_gain`. -/
theorem match_boundary_energy_gain_witness :
    (∀ i, i < 2 →
       (matchBoundaryEnergy [200, 200] [100, 100] 2 200 100).getD i 0 =
         clampCastI16 ((([100, 100] : List Int).getD i 0 : ℚ) *
           codeGain (clampRatio ((200 : ℚ) / 100)) i 2)) ∧
    (∀ i, 2 ≤ i →
       (matchBoundaryEnergy [200, 200] [100, 100] 2 200 100).getD i 0 =
         ([100, 100] : List Int).getD i 0) ∧
    codeGain (clampRatio ((200 : ℚ) / 100)) 0 2 =
      clampRatio ((200 : ℚ) / 100) ∧
    codeGain (clampRatio ((200 : ℚ) / 100)) 2 2 = 1 :=
  match_boundary_energy_gain [200, 200] [100, 100] 2 200 100
    (by norm_num) (by norm_num) (by norm_num) (by norm_num) (by norm_num)
    (by norm_num [rmsSq]) (by norm_num [rmsSq])

/-- C6 as stated is false: at `prev = [200, 200]`, `next = [100, 100]`,
`crossfade = 2` (RMS 200 and 100, ratio clamped to 2) the code writes 150
at index `crossfade − 1 = 1` — gain 1.5 — while a gain of exactly 1.0
there, as the claim requires, would write 100. -/
theorem match_boundary_energy_counterexample :
    (200 : ℚ) ^ 2 = rmsSq [200, 200] ∧
    (100 : ℚ) ^ 2 = rmsSq [100, 100] ∧
    clampRatio ((200 : ℚ) / 100) = 2 ∧
    (matchBoundaryEnergy [200, 200] [100, 100] 2 200 100).getD 1 0 = 150 ∧
    clampCastI16 ((100 : ℚ) * claimGain 2 1 2) = 100 ∧
    (150 : Int) ≠ 100 := by
  refine ⟨by norm_num [rmsSq], by norm_num [rmsSq], by norm_num [clampRatio],
    ?_, ?_, by norm_num⟩
  · norm_num [matchBoundaryEnergy, clampRatio, applyGainLoop, codeGain,
      clampCastI16, cTrunc]
  · norm_num [claimGain, clampCastI16, cTrunc]

/-! ## Time stretching (ctts.c, `time_stretch`)

The Hann window values are `float` cosines, irrational in general, so the
window enters the model as a function parameter `w : Nat → ℚ`; every
theorem below holds for all `w`, in particular for the table the C
computes.  `size_t` arithmetic is carried out `% 2 ^ 64`: the expression
`(input_count - frame_size)` underflows for inputs shorter than one
frame, which is what claim C8 exercises.  `fuel = input.length` bounds the
frame loop: each iteration advances `analysis_pos` by 110 and the loop
exits once `analysis_pos + 441` passes the input length, so the fuel is
never exhausted before the exit condition fails. -/

/-- The speed clamp at the top of `time_stretch` (ctts.c:2459-2460). -/
def clampSpeed (s : ℚ) : ℚ := if s < 1/2 then 1/2 else if s > 2 then 2 else s

/-- Embedding of `synthesis_hop = (size_t)(analysis_hop / speed_factor)`
(ctts.c:2465) with `analysis_hop = 441 / 4 = 110`. -/
def synthHop (s : ℚ) : Nat := (⌊(110 : ℚ) / clampSpeed s⌋).toNat

/-- A `size_t` subtraction `a - b` (wrapping modulo `2 ^ 64`). -/
def sub64 (a b : Nat) : Nat := (a + 2 ^ 64 - b) % 2 ^ 64

/-- Embedding of `num_frames = (input_count - frame_size) / analysis_hop
+ 1` (ctts.c:2468) in `size_t` arithmetic. -/
def numFrames64 (inputCount : Nat) : Nat := sub64 inputCount 441 / 110 + 1

/-- Embedding of `*output_count = num_frames * synthesis_hop + frame_size`
(ctts.c:2469) in `size_t` arithmetic: the element count of the output
allocation the function requests. -/
def timeStretchOutputCount (inputCount : Nat) (speed : ℚ) : Nat :=
  (numFrames64 inputCount * synthHop speed + 441) % 2 ^ 64

/-- One body of the overlap-add inner loop (ctts.c:2499-2503): the
windowed sample is truncated to `int16_t` and accumulated into the output
(a 16-bit store, hence the wrap), and the window value accumulates into
the normalisation buffer. -/
def olaStep (w : Nat → ℚ) (input : List Int) (ap sp : Nat)
    (st : List Int × List ℚ) (i : Nat) : List Int × List ℚ :=
  (st.1.set (sp + i) (toI16 (st.1.getD (sp + i) 0 +
     cTrunc ((input.getD (ap + i) 0 : ℚ) * w i))),
   st.2.set (sp + i) (st.2.getD (sp + i) 0 + w i))

/-- One analysis frame (ctts.c:2499-2503): 441 inner-loop bodies. -/
def olaFrame (w : Nat → ℚ) (input : List Int) (ap sp : Nat)
    (st : List Int × List ℚ) : List Int × List ℚ :=
  (List.range 441).foldl (olaStep w input ap sp) st

/-- The frame loop of `time_stretch` (ctts.c:2496-2507). -/
def olaLoop (w : Nat → ℚ) (input : List Int) (outLen hop : Nat) :
    Nat → Nat → Nat → List Int × List ℚ → List Int × List ℚ
  | 0, _, _, st => st
  | fuel + 1, ap, sp, st =>
    if ap + 441 ≤ input.length ∧ sp + 441 ≤ outLen then
      olaLoop w input outLen hop fuel (ap + 110) (sp + hop)
        (olaFrame w input ap sp st)
    else st

/-- The normalisation pass of `time_stretch` (ctts.c:2510-2517): divide by
the accumulated window where it exceeds 0.01, clamp, truncate. -/
def normalizePass (out : List Int) (norm : List ℚ) : List Int :=
  List.zipWith
    (fun (s : Int) (n : ℚ) =>
      if n > 1/100 then clampCastI16 ((s : ℚ) / n) else s)
    out norm

/-- The trailing-silence trim of `time_stretch` (ctts.c:2523-2525): the
returned `*output_count` after decrementing past the trailing zeros. -/
def trimLen (l : List Int) : Nat :=
  (l.reverse.dropWhile (fun s => s == 0)).length

/-- The output buffer of `time_stretch` after overlap-add and
normalisation (before the count is trimmed). -/
def timeStretchBuffer (w : Nat → ℚ) (input : List Int) (speed : ℚ) :
    List Int :=
  let outLen := timeStretchOutputCount input.length speed
  let st := olaLoop w input outLen (synthHop speed) input.length 0 0
    (List.replicate outLen 0, List.replicate outLen 0)
  normalizePass st.1 st.2

/-- The sample count `time_stretch` hands back (after trimming). -/
def timeStretchTrimmedCount (w : Nat → ℚ) (input : List Int) (speed : ℚ) :
    Nat :=
  trimLen (timeStretchBuffer w input speed)

theorem getD_set_ite {α : Type} (l : List α) (k j : Nat) (v d : α) :
    (l.set k v).getD j d = if k = j ∧ k < l.length then v else l.getD j d := by
  induction l generalizing k j with
  | nil => simp
  | cons a t ih =>
    cases k with
    | zero =>
      cases j with
      | zero => simp
      | succ jj => simp
    | succ kk =>
      cases j with
      | zero => simp
      | succ jj =>
        simp only [List.set_cons_succ, List.getD_cons_succ, List.length_cons,
          ih kk jj]
        exact if_congr (by omega) rfl rfl

theorem foldl_olaStep_untouched (w : Nat → ℚ) (input : List Int)
    (ap sp : Nat) (L : List Nat) :
    ∀ st j, (∀ i ∈ L, sp + i ≠ j) →
      ((L.foldl (olaStep w input ap sp) st).1.getD j 0 = st.1.getD j 0 ∧
       (L.foldl (olaStep w input ap sp) st).2.getD j 0 = st.2.getD j 0) := by
  induction L with
  | nil => intro st j _; exact ⟨rfl, rfl⟩
  | cons i t ih =>
    intro st j hj
    rw [List.foldl_cons]
    obtain ⟨h1, h2⟩ := ih (olaStep w input ap sp st i) j
      (fun x hx => hj x (by simp [hx]))
    refine ⟨?_, ?_⟩
    · rw [h1]
      simp only [olaStep, getD_set_ite]
      rw [if_neg (by have := hj i (by simp); omega)]
    · rw [h2]
      simp only [olaStep, getD_set_ite]
      rw [if_neg (by have := hj i (by simp); omega)]

theorem olaLoop_high_zeros (w : Nat → ℚ) (input : List Int)
    (outLen hop : Nat) (hhop : hop ≤ 110) :
    ∀ fuel ap sp st, sp ≤ ap →
      (∀ j, input.length ≤ j → st.1.getD j 0 = 0) →
      (∀ j, input.length ≤ j → st.2.getD j 0 = 0) →
      ∀ j, input.length ≤ j →
        (olaLoop w input outLen hop fuel ap sp st).1.getD j 0 = 0 ∧
        (olaLoop w input outLen hop fuel ap sp st).2.getD j 0 = 0 := by
  intro fuel
  induction fuel with
  | zero =>
    intro ap sp st _ h1 h2 j hj
    exact ⟨h1 j hj, h2 j hj⟩
  | succ k ih =>
    intro ap sp st hsp h1 h2 j hj
    simp only [olaLoop]
    split
    · rename_i hcond
      refine ih (ap + 110) (sp + hop) (olaFrame w input ap sp st)
        (by omega) ?_ ?_ j hj
      · intro j' hj'
        have hne : ∀ i ∈ List.range 441, sp + i ≠ j' := by
          intro i hi
          have : i < 441 := List.mem_range.mp hi
          omega
        exact (foldl_olaStep_untouched w input ap sp _ st j' hne).1.trans
          (h1 j' hj')
      · intro j' hj'
        have hne : ∀ i ∈ List.range 441, sp + i ≠ j' := by
          intro i hi
          have : i < 441 := List.mem_range.mp hi
          omega
        exact (foldl_olaStep_untouched w input ap sp _ st j' hne).2.trans
          (h2 j' hj')
    · exact ⟨h1 j hj, h2 j hj⟩

theorem zipWith_norm_getD (out : List Int) (norm : List ℚ) (j : Nat)
    (h1 : j < out.length) (h2 : j < norm.length) :
    (normalizePass out norm).getD j 0 =
      (if norm.getD j 0 > 1/100
       then clampCastI16 ((out.getD j 0 : ℚ) / norm.getD j 0)
       else out.getD j 0) := by
  induction out generalizing norm j with
  | nil => simp at h1
  | cons s t ih =>
    cases norm with
    | nil => simp at h2
    | cons n nt =>
      cases j with
      | zero => simp [normalizePass]
      | succ jj =>
        simp only [normalizePass, List.zipWith_cons_cons, List.getD_cons_succ]
        exact ih nt jj (by simpa using h1) (by simpa using h2)

theorem dropWhile_append_all {α : Type} (p : α → Bool) (A B : List α)
    (h : ∀ a ∈ A, p a = true) :
    (A ++ B).dropWhile p = B.dropWhile p := by
  induction A with
  | nil => rfl
  | cons a t ih =>
    simp only [List.cons_append, List.dropWhile_cons, h a (by simp)]
    exact ih (fun x hx => h x (by simp [hx]))

theorem length_dropWhile_le {α : Type} (p : α → Bool) (l : List α) :
    (l.dropWhile p).length ≤ l.length := by
  induction l with
  | nil => simp
  | cons a t ih =>
    simp only [List.dropWhile_cons]
    split
    · simp only [List.length_cons]
      omega
    · simp

theorem trimLen_le (l : List Int) (m : Nat)
    (h : ∀ j, m ≤ j → l.getD j 0 = 0) : trimLen l ≤ m := by
  unfold trimLen
  have hsplit : l.reverse = (l.drop m).reverse ++ (l.take m).reverse := by
    rw [← List.reverse_append, List.take_append_drop]
  rw [hsplit, dropWhile_append_all]
  · calc ((l.take m).reverse.dropWhile (fun s => s == 0)).length
        ≤ (l.take m).reverse.length := length_dropWhile_le _ _
      _ = (l.take m).length := List.length_reverse _
      _ ≤ m := by rw [List.length_take]; omega
  · intro a ha
    rw [List.mem_reverse] at ha
    obtain ⟨k, hk, hke⟩ := List.getElem_of_mem ha
    rw [List.getElem_drop] at hke
    have : l.getD (m + k) 0 = a := by
      rw [List.getD_eq_getElem?_getD, List.getElem?_eq_getElem (by
        rw [List.length_drop] at hk
        omega), hke]
      rfl
    have ha0 : a = 0 := by
      rw [← this]
      exact h (m + k) (by omega)
    simp [ha0]

theorem getD_replicate_self {α : Type} (n j : Nat) (d : α) :
    (List.replicate n d).getD j d = d := by
  by_cases hj : j < n
  · rw [List.getD_eq_getElem?_getD, List.getElem?_replicate, if_pos hj]
    rfl
  · exact List.getD_eq_default _ _ (by simp only [List.length_replicate]; omega)

theorem trimLen_zero (l : List Int) (h : ∀ a ∈ l, a = 0) : trimLen l = 0 := by
  unfold trimLen
  have := dropWhile_append_all (fun s : Int => s == 0) l.reverse []
    (by intro a ha; rw [List.mem_reverse] at ha; simp [h a ha])
  simpa using this

theorem foldl_olaStep_zero (w : Nat → ℚ) (input : List Int) (ap sp : Nat)
    (hin : ∀ j, input.getD j 0 = 0) (L : List Nat) :
    ∀ st, (∀ j, st.1.getD j 0 = 0) →
      ∀ j, (L.foldl (olaStep w input ap sp) st).1.getD j 0 = 0 := by
  induction L with
  | nil => intro st h j; exact h j
  | cons i t ih =>
    intro st h j
    rw [List.foldl_cons]
    refine ih (olaStep w input ap sp st i) ?_ j
    intro j'
    simp only [olaStep, getD_set_ite]
    split
    · rw [h (sp + i), hin (ap + i)]
      norm_num [cTrunc, toI16]
    · exact h j'

theorem olaLoop_zero (w : Nat → ℚ) (input : List Int) (outLen hop : Nat)
    (hin : ∀ j, input.getD j 0 = 0) :
    ∀ fuel ap sp st, (∀ j, st.1.getD j 0 = 0) →
      ∀ j, (olaLoop w input outLen hop fuel ap sp st).1.getD j 0 = 0 := by
  intro fuel
  induction fuel with
  | zero => intro ap sp st h j; exact h j
  | succ k ih =>
    intro ap sp st h j
    simp only [olaLoop]
    split
    · exact ih (ap + 110) (sp + hop) _
        (foldl_olaStep_zero w input ap sp hin _ st h) j
    · exact h j

theorem normalizePass_zero (out : List Int) (norm : List ℚ)
    (h : ∀ j, out.getD j 0 = 0) :
    ∀ a ∈ normalizePass out norm, a = 0 := by
  intro a ha
  obtain ⟨k, hk, hke⟩ := List.getElem_of_mem ha
  have hklen : k < out.length ∧ k < norm.length := by
    unfold normalizePass at hk
    rw [List.length_zipWith] at hk
    omega
  have := zipWith_norm_getD out norm k hklen.1 hklen.2
  rw [List.getD_eq_getElem?_getD, List.getElem?_eq_getElem hk, hke] at this
  rw [h k] at this
  simp only [Option.getD_some] at this
  rw [this]
  split
  · norm_num [clampCastI16, cTrunc]
  · rfl

/-- Any all-zero input (of any length, at any speed) comes back from
`time_stretch` with a trimmed sample count of 0: every write is a zero,
and the trim removes everything. -/
theorem timeStretch_zero_input (w : Nat → ℚ) (input : List Int)
    (hin : ∀ j, input.getD j 0 = 0) (speed : ℚ) :
    timeStretchTrimmedCount w input speed = 0 := by
  unfold timeStretchTrimmedCount timeStretchBuffer
  apply trimLen_zero
  apply normalizePass_zero
  apply olaLoop_zero w input _ _ hin
  intro j
  exact getD_replicate_self _ j 0

/-- C5 as stated is false: on the all-zero 441-sample input the trimmed
output count is 0, not 441 (whatever the Hann window values are). -/
theorem time_stretch_unit_speed_counterexample :
    ¬ (∀ (w : Nat → ℚ) (input : List Int), 441 ≤ input.length →
        timeStretchTrimmedCount w input 1 = input.length) := by
  intro h
  have hz : ∀ j, (List.replicate 441 (0 : Int)).getD j 0 = 0 :=
    fun j => getD_replicate_self 441 j 0
  have h441 : 441 ≤ (List.replicate 441 (0 : Int)).length := by
    rw [List.length_replicate]
  have := h (fun _ => 0) (List.replicate 441 0) h441
  rw [timeStretch_zero_input (fun _ => 0) _ hz 1,
    List.length_replicate] at this
  omega

set_option maxHeartbeats 1600000 in
/-- C5 (amended): at speed 1.0 (synthesis hop = analysis hop = 110) the
overlap-add never writes at or past the input length, so after trimming
the trailing zeros the output sample count is at most the input count —
not equal to it in general. -/
theorem time_stretch_unit_speed_le (w : Nat → ℚ) (input : List Int)
    (_h441 : 441 ≤ input.length) :
    timeStretchTrimmedCount w input 1 ≤ input.length := by
  have hhop : synthHop 1 = 110 := by
    unfold synthHop
    rw [show clampSpeed 1 = 1 from by norm_num [clampSpeed]]
    norm_num
    decide
  unfold timeStretchTrimmedCount timeStretchBuffer
  apply trimLen_le
  intro j hj
  have hzin : ∀ j', input.length ≤ j' →
      (List.replicate (timeStretchOutputCount input.length 1) (0 : Int)).getD
        j' 0 = 0 :=
    fun j' _ => getD_replicate_self _ j' 0
  have hzn : ∀ j', input.length ≤ j' →
      (List.replicate (timeStretchOutputCount input.length 1) (0 : ℚ)).getD
        j' 0 = 0 :=
    fun j' _ => getD_replicate_self _ j' 0
  obtain ⟨hout, hnorm⟩ := olaLoop_high_zeros w input
    (timeStretchOutputCount input.length 1) (synthHop 1) (by rw [hhop])
    input.length 0 0
    (List.replicate (timeStretchOutputCount input.length 1) 0,
     List.replicate (timeStretchOutputCount input.length 1) 0)
    (le_refl 0) hzin hzn j hj
  set st := olaLoop w input (timeStretchOutputCount input.length 1)
    (synthHop 1) input.length 0 0
    (List.replicate (timeStretchOutputCount input.length 1) 0,
     List.replicate (timeStretchOutputCount input.length 1) 0) with hst
  by_cases hjl : j < st.1.length ∧ j < st.2.length
  · rw [zipWith_norm_getD st.1 st.2 j hjl.1 hjl.2, hout, hnorm]
    norm_num [clampCastI16, cTrunc]
  · rw [List.getD_eq_default]
    unfold normalizePass
    rw [List.length_zipWith]
    rw [← hst]
    omega

/-- Closed witness for `time_stretch_unit_speed_le`. -/
theorem time_stretch_unit_speed_le_witness :
    timeStretchTrimmedCount (fun _ => 0) (List.replicate 441 0) 1 ≤
      (List.replicate 441 (0 : Int)).length :=
  time_stretch_unit_speed_le (fun _ => 0) (List.replicate 441 0)
    (by rw [List.length_replicate])

/-! ### The dispatch loop of `ctts_synthesize` (claims C7 and C8)

Embedding of the character-dispatch loop of `ctts_synthesize`
(ctts.c:2594-2784) as a step function on an explicit state.  The state
keeps what the loop's control flow reads and writes: the remaining
normalized text bytes, the output buffer's sample count, the
`prev_was_word_boundary` flag, the word-start sample and word index used
by the prosody code, and a trace of the appending operations performed
(silences and `buffer_append_crossfade` paths).  The DSP helpers that
only rewrite samples in place (`apply_fade_out`, `apply_declination`,
`apply_question_intonation`, `normalize_rms`, `smooth_pitch_boundary`,
`match_boundary_energy`) never change any of these fields and are not
represented.  Quantities the loop obtains from the engine and the config
— the matcher's result, the unit sample counts, the adaptive crossfade
width, the pause widths, and the count change of the within-word silence
removal — enter as an environment of oracles, so every theorem holds for
all engines and configurations.  Allocation failures inside
`buffer_append_silence` and `buffer_append_crossfade` abort the C
function and are not modeled. -/

/-- Whitespace test of the word-pause branch (ctts.c:2596). -/
def isWsByte (b : Nat) : Bool := b == 32 || b == 9 || b == 10 || b == 13

/-- Punctuation test of the pause branch (ctts.c:2655-2656). -/
def isPunctByte (b : Nat) : Bool :=
  b == 44 || b == 59 || b == 58 || b == 46 || b == 33 || b == 63

/-- Bracket-and-quote test of the skip branch (ctts.c:2685-2686). -/
def isSkipByte (b : Nat) : Bool :=
  b == 40 || b == 41 || b == 91 || b == 93 || b == 34 || b == 39 || b == 96

/-- The `is_sentence_end` helper (ctts.c:657-659). -/
def isSentenceEnd (b : Nat) : Bool := b == 46 || b == 33 || b == 63

/-- The `utf8_char_len` helper (ctts.c:155-162), reading the lead byte. -/
def utf8CharLenByte (b : Nat) : Nat :=
  if b % 256 < 128 then 1
  else if b % 256 / 32 = 6 then 2
  else if b % 256 / 16 = 14 then 3
  else if b % 256 / 8 = 30 then 4
  else 1

/-- The three code paths of `buffer_append_crossfade` (ctts.c:2386-2430),
as the loop's trace records them. -/
inductive AppendPath where
  | fadeIn
  | plain
  | crossfade
  deriving DecidableEq

/-- One buffer operation of the dispatch loop, for the trace. -/
inductive SynthEvent where
  | wordPause (n : Nat)
  | punctPause (n : Nat)
  | unknownSilence (n : Nat)
  | append (p : AppendPath)
  deriving DecidableEq

/-- Path dispatch and count arithmetic of `buffer_append_crossfade`
(ctts.c:2361-2435): `count == 0` returns at once (ctts.c:2365);
`buf->count == 0 || after_word_boundary` takes the fade-in path
(ctts.c:2386-2390); `crossfade_samples == 0` appends plainly
(ctts.c:2391-2394); otherwise the crossfade path mixes
`actual_crossfade = min(min(crossfade_samples, buf->count), count)`
samples in place and appends the remaining `count - actual_crossfade`
(ctts.c:2396-2430; when `count = actual_crossfade` the final `memcpy` is
skipped and the count gains 0, which the subtraction below also gives). -/
def bufferAppendCrossfade (bufCount count cf : Nat) (afterWB : Bool) :
    Option AppendPath × Nat :=
  if count = 0 then (none, bufCount)
  else if bufCount = 0 ∨ afterWB = true then
    (some AppendPath.fadeIn, bufCount + count)
  else if cf = 0 then (some AppendPath.plain, bufCount + count)
  else (some AppendPath.crossfade,
    bufCount + (count - min (min cf bufCount) count))

/-- Oracles standing for what the loop body obtains from the engine and
the config: `wordPauseSamples` and `unknownSilence` are the two constant
silence widths (ctts.c:2571-2572); `punctPause b` is the pause width the
punctuation branch computes from `get_punctuation_pause_ms` (ctts.c:2659-
2660); `wordTrim ws c` is the buffer count after the within-word silence
removal and prosody of the whitespace branch, run on the region starting
at `ws` of a buffer of count `c` (ctts.c:2598-2625); `matcher rest wb`
is `(match_len, unit_idx)` from `find_best_match_with_lookahead`
(ctts.c:2693-2694); `unitSamples i` is the sample count of unit `i` from
`get_unit_samples` (ctts.c:2699); `cf rest wb` is the adaptive crossfade
width in samples the match branch computes (ctts.c:2715-2732, 2757). -/
structure SynthEnv where
  wordPauseSamples : Nat
  unknownSilence : Nat
  punctPause : Nat → Nat
  wordTrim : Nat → Nat → Nat
  matcher : List Nat → Bool → Nat × Int
  unitSamples : Int → Nat
  cf : List Nat → Bool → Nat

/-- The loop state: remaining text, buffer count, the
`prev_was_word_boundary` flag, `word_start_sample`, `current_word_index`,
and the trace of buffer operations. -/
structure SynthState where
  pos : List Nat
  bufCount : Nat
  prevWB : Bool
  wordStart : Nat
  wordIndex : Nat
  events : List SynthEvent
  deriving DecidableEq

/-- One iteration of the dispatch on head byte `b` with remaining text
`rest` (ctts.c:2596-2783), branch for branch: whitespace trims the
finished word, appends the word pause and raises the flag
(ctts.c:2596-2643); a hyphen only advances the position
(ctts.c:2646-2652); punctuation appends its pause (when positive),
raises the flag, and sentence-enders reset the prosody tracking
(ctts.c:2655-2682); brackets and quotes only advance (ctts.c:2685-2689);
a match (`match_len > 0 && unit_idx >= 0`) goes through
`buffer_append_crossfade` with the current flag and clears it
(ctts.c:2692-2774); otherwise the unknown-character silence is appended
and the position advances by one UTF-8 character, the flag untouched
(ctts.c:2775-2783). -/
def synthDispatch (env : SynthEnv) (s : SynthState) (b : Nat)
    (rest : List Nat) : SynthState :=
  if isWsByte b then
    { pos := rest
      bufCount := env.wordTrim s.wordStart s.bufCount + env.wordPauseSamples
      prevWB := true
      wordStart := env.wordTrim s.wordStart s.bufCount + env.wordPauseSamples
      wordIndex := s.wordIndex + 1
      events := s.events ++ [SynthEvent.wordPause env.wordPauseSamples] }
  else if b == 45 then
    { s with pos := rest }
  else if isPunctByte b then
    { pos := rest
      bufCount := s.bufCount + env.punctPause b
      prevWB := true
      wordStart := if isSentenceEnd b then s.bufCount + env.punctPause b
                   else s.wordStart
      wordIndex := if isSentenceEnd b then 0 else s.wordIndex
      events := s.events ++
        (if 0 < env.punctPause b
         then [SynthEvent.punctPause (env.punctPause b)] else []) }
  else if isSkipByte b then
    { s with pos := rest }
  else if 0 < (env.matcher (b :: rest) s.prevWB).1 ∧
          0 ≤ (env.matcher (b :: rest) s.prevWB).2 then
    { pos := (b :: rest).drop (env.matcher (b :: rest) s.prevWB).1
      bufCount := (bufferAppendCrossfade s.bufCount
        (env.unitSamples (env.matcher (b :: rest) s.prevWB).2)
        (env.cf (b :: rest) s.prevWB) s.prevWB).2
      prevWB := false
      wordStart := s.wordStart
      wordIndex := s.wordIndex
      events := s.events ++
        (match (bufferAppendCrossfade s.bufCount
            (env.unitSamples (env.matcher (b :: rest) s.prevWB).2)
            (env.cf (b :: rest) s.prevWB) s.prevWB).1 with
         | some p => [SynthEvent.append p]
         | none => []) }
  else
    { pos := (b :: rest).drop (utf8CharLenByte b)
      bufCount := s.bufCount + env.unknownSilence
      prevWB := s.prevWB
      wordStart := s.wordStart
      wordIndex := s.wordIndex
      events := s.events ++ [SynthEvent.unknownSilence env.unknownSilence] }

/-- One test of `while (*pos)` followed by one loop body (ctts.c:2594). -/
def synthStep (env : SynthEnv) (s : SynthState) : SynthState :=
  match s.pos with
  | [] => s
  | b :: rest => synthDispatch env s b rest

/-- The dispatch loop, fuel-bounded (each iteration consumes at least one
byte, so `fuel = text length` always reaches the exit). -/
def synthRun (env : SynthEnv) : Nat → SynthState → SynthState
  | 0, s => s
  | fuel + 1, s =>
    match s.pos with
    | [] => s
    | b :: rest => synthRun env fuel (synthDispatch env s b rest)

/-- The loop's entry state (ctts.c:2574-2587): empty buffer,
`prev_was_word_boundary = 1`, word tracking at zero, nothing appended. -/
def synthInit (text : List Nat) : SynthState :=
  { pos := text
    bufCount := 0
    prevWB := true
    wordStart := 0
    wordIndex := 0
    events := [] }

/-- C7: a hyphen is consumed by advancing the position only — the buffer
count, the trace and the `prev_was_word_boundary` flag are untouched
(ctts.c:2646-2652) — so when the next byte begins a matched unit while
the flag is down, the buffer non-empty and the crossfade width positive,
that unit is appended through the crossfade path of
`buffer_append_crossfade`, not the fade-in path. -/
theorem hyphen_soft_separator (env : SynthEnv) (s : SynthState)
    (b2 : Nat) (rest2 : List Nat) (len : Nat) (idx : Int)
    (hpos : s.pos = 45 :: b2 :: rest2)
    (hws : isWsByte b2 = false) (hhy : (b2 == 45) = false)
    (hpt : isPunctByte b2 = false) (hsk : isSkipByte b2 = false)
    (hwb : s.prevWB = false)
    (hmatch : env.matcher (b2 :: rest2) false = (len, idx))
    (hlen : 0 < len) (hidx : 0 ≤ idx)
    (husamp : 0 < env.unitSamples idx)
    (hbuf : 0 < s.bufCount)
    (hcf : 0 < env.cf (b2 :: rest2) false) :
    (synthStep env s).pos = b2 :: rest2 ∧
    (synthStep env s).bufCount = s.bufCount ∧
    (synthStep env s).prevWB = s.prevWB ∧
    (synthStep env s).events = s.events ∧
    (synthStep env (synthStep env s)).events =
      s.events ++ [SynthEvent.append AppendPath.crossfade] ∧
    (synthStep env (synthStep env s)).bufCount =
      s.bufCount + (env.unitSamples idx -
        min (min (env.cf (b2 :: rest2) false) s.bufCount)
          (env.unitSamples idx)) := by
  have h1 : synthStep env s = { s with pos := b2 :: rest2 } := by
    unfold synthStep
    rw [hpos]
    rfl
  have hbac : bufferAppendCrossfade s.bufCount (env.unitSamples idx)
      (env.cf (b2 :: rest2) false) false =
      (some AppendPath.crossfade,
       s.bufCount + (env.unitSamples idx -
         min (min (env.cf (b2 :: rest2) false) s.bufCount)
           (env.unitSamples idx))) := by
    unfold bufferAppendCrossfade
    rw [if_neg (by omega),
      if_neg (fun h => h.elim (fun h0 => by omega)
        (fun hf => absurd hf (by simp))),
      if_neg (by omega)]
  have h2 : synthStep env { s with pos := b2 :: rest2 } =
      { pos := (b2 :: rest2).drop len
        bufCount := s.bufCount + (env.unitSamples idx -
          min (min (env.cf (b2 :: rest2) false) s.bufCount)
            (env.unitSamples idx))
        prevWB := false
        wordStart := s.wordStart
        wordIndex := s.wordIndex
        events := s.events ++ [SynthEvent.append AppendPath.crossfade] } := by
    show synthDispatch env { s with pos := b2 :: rest2 } b2 rest2 = _
    unfold synthDispatch
    rw [if_neg (by simp [hws]), if_neg (by simp [hhy]),
      if_neg (by simp [hpt]), if_neg (by simp [hsk])]
    dsimp only
    rw [hwb, hmatch]
    dsimp only
    rw [if_pos ⟨hlen, hidx⟩, hbac]
  rw [h1, h2]
  exact ⟨rfl, rfl, rfl, rfl, rfl, rfl⟩

/-- A concrete environment for the hyphen scenario: the store knows the
one-byte unit `"a"` (5 samples) and nothing else, with a crossfade width
of 3 samples. -/
def envDemo : SynthEnv :=
  { wordPauseSamples := 4
    unknownSilence := 2
    punctPause := fun _ => 3
    wordTrim := fun _ c => c
    matcher := fun r _ => if r = [97] then (1, 0) else (0, -1)
    unitSamples := fun _ => 5
    cf := fun _ _ => 3 }

/-- A concrete mid-word state about to read `"-a"` with 7 samples already
buffered and the word-boundary flag down. -/
def sDemo : SynthState :=
  { pos := [45, 97]
    bufCount := 7
    prevWB := false
    wordStart := 0
    wordIndex := 0
    events := [] }

/-- Closed witness for `hyphen_soft_separator` on the state `sDemo`
reading `"-a"` in the environment `envDemo`. -/
theorem hyphen_soft_separator_witness :
    (synthStep envDemo sDemo).pos = 97 :: [] ∧
    (synthStep envDemo sDemo).bufCount = sDemo.bufCount ∧
    (synthStep envDemo sDemo).prevWB = sDemo.prevWB ∧
    (synthStep envDemo sDemo).events = sDemo.events ∧
    (synthStep envDemo (synthStep envDemo sDemo)).events =
      sDemo.events ++ [SynthEvent.append AppendPath.crossfade] ∧
    (synthStep envDemo (synthStep envDemo sDemo)).bufCount =
      sDemo.bufCount + (envDemo.unitSamples 0 -
        min (min (envDemo.cf (97 :: []) false) sDemo.bufCount)
          (envDemo.unitSamples 0)) :=
  hyphen_soft_separator envDemo sDemo 97 [] 1 0 rfl rfl rfl rfl rfl rfl
    (by decide) (by decide) (by decide) (by decide) (by decide)
    (by decide)

/-- C8 fails in the code: on the empty string the dispatch loop never
runs, so the buffer reaching the speed check has 0 samples; for any speed
other than 1.0 (for instance 0.5) `ctts_synthesize` calls `time_stretch`
with `input_count = 0` (ctts.c:2824-2827), where the `size_t` expression
`(input_count - frame_size)` underflows (ctts.c:2468) and the function
asks `calloc` for 18446744073709551365 `int16_t` samples — more than
`2 ^ 63`, so the byte size overflows `size_t` and the allocation must
fail — and `CTTS_ERR_OUT_OF_MEMORY` is returned instead of an empty
waveform (ctts.c:2472, 2828-2831). -/
theorem empty_text_stretch_oom :
    (∀ (env : SynthEnv) (fuel : Nat),
        (synthRun env fuel (synthInit [])).bufCount = 0) ∧
    timeStretchOutputCount 0 (1/2) = 18446744073709551365 ∧
    2 ^ 63 < timeStretchOutputCount 0 (1/2) := by
  have hhop : synthHop (1/2) = 220 := by
    unfold synthHop
    rw [show clampSpeed (1/2) = 1/2 from by norm_num [clampSpeed]]
    norm_num
    decide
  have hval : timeStretchOutputCount 0 (1/2) = 18446744073709551365 := by
    unfold timeStretchOutputCount numFrames64 sub64
    rw [hhop]
    norm_num
  refine ⟨?_, hval, ?_⟩
  · intro env fuel
    cases fuel <;> rfl
  · rw [hval]
    norm_num

end CTTS
